import Mathlib

/-!
# todo-tui: the mode-driven state machine of `main.go`

A shallow embedding of `model.Update` and `model.removeTaskFromCurrentList`
(`src/main.go`), together with the state they work on.

Modelling conventions.

* Go `int` (cursors, ids, the id counter) is `Int`: the code computes
  `len(list) - 1`, which is `-1` on an empty list, so the sign matters.  Wrap-around
  of the id counter is not modelled (it needs `2^63` insertions).
* A Go string is a `String` (well-formed UTF-8).
* `taskListPerMode` is a `map[mode]*TaskList` that `initialModel` fills with exactly
  the keys `normalMode` and `completedMode`; no key is ever added or deleted.  It
  is embedded as the two fields `normalList` and `completedList` plus the lookup
  `taskListPerMode`, which answers `none` (Go: a nil pointer) for the other modes.
* Every run-time panic of the Go code (nil pointer dereference, index out of range)
  is a result `none`.
* The Bubble Tea widgets (`textinput.Model`, `spinner.Model`) are library code.
  They are taken as a parameter `Widgets`; what a theorem needs to know about them
  is stated as a hypothesis of that theorem.
* A `tea.KeyMsg` is represented by the string `msg.String()`, the only thing
  `Update` looks at.
-/

namespace TodoTui

/-- The type `mode` with its four constants. -/
inductive mode where
  | normalMode
  | completedMode
  | additionMode
  | editingMode
  deriving DecidableEq, Repr

/-- The struct `Task`. -/
structure Task where
  name : String
  id : Int
  deriving DecidableEq, Repr

/-- The struct `TaskList`. -/
structure TaskList where
  list : List Task
  cursor : Int
  deriving DecidableEq, Repr

/-- A `tea.Msg` as `Update` distinguishes them: a key message (given by its
`String()`), an `errMsg`, or any other message. -/
inductive Msg where
  | key (s : String)
  | err (e : String)
  | other (n : Nat)
  deriving DecidableEq, Repr

/-- The `tea.Cmd` values `Update` returns: `nil`, `tea.Quit`, `textinput.Blink`,
the command handed back by `textinput.Update`, the one handed back by
`spinner.Update`. -/
inductive Cmd where
  | nil
  | quit
  | blink
  | input
  | spinner
  deriving DecidableEq, Repr

/-- The library widgets used by the program: the state of a `textinput.Model` and of
a `spinner.Model` with the operations `main.go` calls on them. -/
structure Widgets where
  Input : Type
  Spinner : Type
  newInput : Input
  newSpinner : Spinner
  value : Input → String
  inputUpdate : Input → Msg → Input
  setValue : Input → String → Input
  reset : Input → Input
  spinnerUpdate : Spinner → Msg → Spinner

/-- The struct `model`; the map `taskListPerMode` is the pair of fields `normalList`,
`completedList`. -/
structure model (w : Widgets) where
  spinner : w.Spinner
  quitting : Bool
  err : Option String
  currentMode : mode
  normalList : TaskList
  completedList : TaskList
  taskID : Int
  additionTextInput : w.Input

variable {w : Widgets}

/-- The lookup `m.taskListPerMode[md]`: a nil pointer for a mode that is not a key. -/
def taskListPerMode (m : model w) (md : mode) : Option TaskList :=
  match md with
  | mode.normalMode => some m.normalList
  | mode.completedMode => some m.completedList
  | mode.additionMode => none
  | mode.editingMode => none

/-- A write through the pointer `m.taskListPerMode[md]` (only reached after the
lookup gave a pointer). -/
def storeList (m : model w) (md : mode) (tl : TaskList) : model w :=
  match md with
  | mode.normalMode => { m with normalList := tl }
  | mode.completedMode => { m with completedList := tl }
  | mode.additionMode => m
  | mode.editingMode => m

/-- The keys of the binding `quitKeys`. -/
def quitKeys : List String := ["q", "esc", "ctrl+c"]

/-- The string `tea.KeyEnter.String()`. -/
def keyEnter : String := "enter"

/-- The string `tea.KeyUp.String()`. -/
def keyUp : String := "up"

/-- The string `tea.KeyDown.String()`. -/
def keyDown : String := "down"

/-- The string `tea.KeyLeft.String()`. -/
def keyLeft : String := "left"

/-- The string `tea.KeyRight.String()`. -/
def keyRight : String := "right"

/-- Go `unicode.IsSpace`. -/
def isSpace (c : Char) : Bool :=
  let n := c.toNat
  (9 ≤ n && n ≤ 13) || n = 0x20 || n = 0x85 || n = 0xA0 || n = 0x1680 ||
  (0x2000 ≤ n && n ≤ 0x200A) || n = 0x2028 || n = 0x2029 || n = 0x202F ||
  n = 0x205F || n = 0x3000

/-- Go `strings.TrimSpace`: leading and trailing white space removed. -/
def trimSpace (s : String) : String :=
  String.mk ((s.data.dropWhile isSpace).reverse.dropWhile isSpace).reverse

/-- The zero value `Task{}`. -/
def emptyTask : Task := { name := "", id := 0 }

/-- The slice access `l[i]` for an `int` index: `none` when out of range. -/
def index (l : List Task) (i : Int) : Option Task :=
  if i < 0 then none else l.get? i.toNat

/-- The slice store `l[i].name = s`: `none` when out of range. -/
def setName (l : List Task) (i : Int) (s : String) : Option (List Task) :=
  match index l i with
  | none => none
  | some t => some (l.set i.toNat { t with name := s })

/-- The loop of `removeTaskFromCurrentList`: ranging over the list with the index
`i`, append to `acc` every task whose index is not `taskIND`. -/
def removeLoop (taskIND : Int) : List Task → Int → List Task → List Task
  | [], _, acc => acc
  | task :: rest, i, acc =>
      removeLoop taskIND rest (i + 1) (if i ≠ taskIND then acc ++ [task] else acc)

/-- The method `removeTaskFromCurrentList`; the state after the call goes with the
returned task, since the lists are mutated through the pointers of the map. -/
def removeTaskFromCurrentList (m : model w) (md : mode) : Option (model w × Task) :=
  match taskListPerMode m md with
  | none => none
  | some currentList =>
    let taskIND := currentList.cursor
    if currentList.list.length = 0 then
      some (m, emptyTask)
    else
      match index currentList.list taskIND with
      | none => none
      | some curTask =>
        let newCurrentList := removeLoop taskIND currentList.list 0 []
        let cursor1 : Int :=
          if currentList.cursor ≥ (newCurrentList.length : Int)
          then (newCurrentList.length : Int) - 1 else currentList.cursor
        let cursor2 : Int := if cursor1 < 0 then 0 else cursor1
        some (storeList m md { list := newCurrentList, cursor := cursor2 }, curTask)

/-- The function `initialModel`. -/
def initialModel (w : Widgets) : model w :=
  let normal : TaskList :=
    { list := [{ id := 2, name := "two" }, { id := 3, name := "three" },
               { id := 4, name := "four" }, { id := 5, name := "five" }],
      cursor := 1 }
  let completed : TaskList :=
    { list := [{ id := 0, name := "completed-zero" }, { id := 1, name := "completed-one" }],
      cursor := 1 }
  { spinner := w.newSpinner
    quitting := false
    err := none
    currentMode := mode.normalMode
    normalList := normal
    completedList := completed
    taskID := (normal.list.length : Int) + (completed.list.length : Int)
    additionTextInput := w.newInput }

/-- The method `Update`: the next state and the command, or `none` for a panic. -/
def Update (w : Widgets) (m : model w) (msg : Msg) : Option (model w × Cmd) :=
  if m.currentMode = mode.additionMode then
    let m1 : model w := { m with additionTextInput := w.inputUpdate m.additionTextInput msg }
    if msg = Msg.key keyEnter then
      let taskName := w.value m1.additionTextInput
      let m2 : model w := { m1 with additionTextInput := w.reset m1.additionTextInput }
      if trimSpace taskName = "" then
        some ({ m2 with currentMode := mode.normalMode }, Cmd.nil)
      else
        let taskID := m2.taskID
        let m3 : model w := { m2 with taskID := m2.taskID + 1 }
        let newTask : Task := { name := taskName, id := taskID }
        match taskListPerMode m3 mode.normalMode with
        | none => none
        | some tl =>
          let m4 := storeList m3 mode.normalMode { tl with list := tl.list ++ [newTask] }
          some ({ m4 with currentMode := mode.normalMode }, Cmd.nil)
    else
      some (m1, Cmd.input)
  else if m.currentMode = mode.editingMode then
    let m1 : model w := { m with additionTextInput := w.inputUpdate m.additionTextInput msg }
    if msg = Msg.key keyEnter then
      let modifiedTaskName := w.value m1.additionTextInput
      if modifiedTaskName = "" then
        match removeTaskFromCurrentList m1 mode.normalMode with
        | none => none
        | some (m2, _) => some ({ m2 with currentMode := mode.normalMode }, Cmd.nil)
      else
        match taskListPerMode m1 mode.normalMode with
        | none => none
        | some taskList =>
          let cursorInd := taskList.cursor
          match setName taskList.list cursorInd modifiedTaskName with
          | none => none
          | some l =>
            let m2 := storeList m1 mode.normalMode { taskList with list := l }
            some ({ m2 with currentMode := mode.normalMode }, Cmd.nil)
    else
      some (m1, Cmd.input)
  else
    match msg with
    | Msg.key k =>
      if k ∈ quitKeys then
        some ({ m with quitting := true }, Cmd.quit)
      else if k = "s" then
        match m.currentMode with
        | mode.normalMode => some ({ m with currentMode := mode.completedMode }, Cmd.nil)
        | mode.completedMode => some ({ m with currentMode := mode.normalMode }, Cmd.nil)
        | _ => some (m, Cmd.nil)
      else if k = keyUp ∨ k = keyLeft then
        match taskListPerMode m m.currentMode with
        | none => none
        | some tl =>
          if tl.cursor > 0 then
            some (storeList m m.currentMode { tl with cursor := tl.cursor - 1 }, Cmd.nil)
          else
            some (m, Cmd.nil)
      else if k = keyDown ∨ k = keyRight then
        match taskListPerMode m m.currentMode with
        | none => none
        | some taskList =>
          if taskList.cursor < (taskList.list.length : Int) - 1 then
            some (storeList m m.currentMode { taskList with cursor := taskList.cursor + 1 },
              Cmd.nil)
          else
            some (m, Cmd.nil)
      else if k = keyEnter then
        match m.currentMode with
        | mode.normalMode =>
          match removeTaskFromCurrentList m mode.normalMode with
          | none => none
          | some (m1, curTask) =>
            if curTask.name ≠ "" then
              match taskListPerMode m1 mode.completedMode with
              | none => none
              | some completedList =>
                some (storeList m1 mode.completedMode
                  { completedList with list := completedList.list ++ [curTask] }, Cmd.nil)
            else
              some (m1, Cmd.nil)
        | _ => some (m, Cmd.nil)
      else if k = "d" then
        match removeTaskFromCurrentList m m.currentMode with
        | none => none
        | some (m1, _) => some (m1, Cmd.nil)
      else if k = "a" then
        some ({ m with currentMode := mode.additionMode }, Cmd.blink)
      else if k = "e" then
        if m.currentMode ≠ mode.normalMode then
          some (m, Cmd.nil)
        else
          match taskListPerMode m mode.normalMode with
          | none => none
          | some curTaskList =>
            let cursorInd := curTaskList.cursor
            if curTaskList.list.length = 0 then
              some (m, Cmd.nil)
            else
              match index curTaskList.list cursorInd with
              | none => none
              | some task =>
                let taskName := task.name
                some ({ m with
                  additionTextInput := w.setValue m.additionTextInput taskName
                  currentMode := mode.editingMode }, Cmd.blink)
      else
        some (m, Cmd.nil)
    | Msg.err e => some ({ m with err := some e }, Cmd.nil)
    | Msg.other _ => some ({ m with spinner := w.spinnerUpdate m.spinner msg }, Cmd.spinner)

/-- The states the program can be in: `initialModel()` and whatever `Update` makes of
a reachable state and a message. -/
inductive Reachable (w : Widgets) : model w → Prop
  | init : Reachable w (initialModel w)
  | step {m m1 : model w} {c : Cmd} (msg : Msg) :
      Reachable w m → Update w m msg = some (m1, c) → Reachable w m1

/-- A small line editor, used to run the state machine on concrete inputs:
`backspace` drops the last character, a key of one character is appended, every
other message leaves the text alone. -/
def lineEdit (v : String) (msg : Msg) : String :=
  match msg with
  | Msg.key k =>
    if k = "backspace" then String.mk v.data.dropLast
    else if k.length = 1 then v ++ k
    else v
  | Msg.err _ => v
  | Msg.other _ => v

/-- Concrete widgets: the text input is its text, edited by `lineEdit`; the spinner
is a frame counter. -/
def plainWidgets : Widgets where
  Input := String
  Spinner := Nat
  newInput := ""
  newSpinner := 0
  value := fun v => v
  inputUpdate := lineEdit
  setValue := fun _ s => s
  reset := fun _ => ""
  spinnerUpdate := fun n _ => n + 1

/-- The cursor invariant of one list: the cursor is an index of the list, or the list
is empty and the cursor is `0`. -/
def CursorOK (tl : TaskList) : Prop :=
  (0 ≤ tl.cursor ∧ tl.cursor < (tl.list.length : Int)) ∨ (tl.list = [] ∧ tl.cursor = 0)

/-- The invariant that keeps `Update` from panicking: both cursors are in order, and
in `editingMode` there is a pending task to edit. -/
def Inv (m : model w) : Prop :=
  CursorOK m.normalList ∧ CursorOK m.completedList ∧
    (m.currentMode = mode.editingMode → m.normalList.list ≠ [])

/-- The event loop of the program: the messages are handed to `Update` one after the
other, each on the state the previous one left. -/
def run (w : Widgets) (m : model w) : List Msg → Option (model w)
  | [] => some m
  | msg :: rest =>
    match Update w m msg with
    | none => none
    | some (m1, _) => run w m1 rest

/-- A concrete state with no pending task: `initialModel()` after four `d`. -/
def emptiedModel : model plainWidgets :=
  { spinner := (0 : Nat)
    quitting := false
    err := none
    currentMode := mode.normalMode
    normalList := { list := [], cursor := 0 }
    completedList :=
      { list := [{ name := "completed-zero", id := 0 }, { name := "completed-one", id := 1 }],
        cursor := 1 }
    taskID := 6
    additionTextInput := ("" : String) }

/-- The ids of all tasks of a state, pending first. -/
def ids (m : model w) : List Int :=
  (m.normalList.list ++ m.completedList.list).map Task.id

/-- The reachable states, each with the log of the ids issued so far: the ids of the
seed tasks of `initialModel()`, then at every call of `Update` the ids found in the
lists afterwards that were in no list before. -/
inductive Issued (w : Widgets) : List Int → model w → Prop
  | init : Issued w (ids (initialModel w)) (initialModel w)
  | step {log : List Int} {m m1 : model w} {c : Cmd} (msg : Msg) :
      Issued w log m → Update w m msg = some (m1, c) →
      Issued w (log ++ (ids m1).filter (fun i => decide (i ∉ ids m))) m1

/-- The event loop again, keeping the log of issued ids of `Issued`. -/
def runIssued (w : Widgets) (log : List Int) (m : model w) :
    List Msg → Option (List Int × model w)
  | [] => some (log, m)
  | msg :: rest =>
    match Update w m msg with
    | none => none
    | some (m1, _) =>
      runIssued w (log ++ (ids m1).filter (fun i => decide (i ∉ ids m))) m1 rest

/-- A concrete state: `initialModel()` after `d` (task 3 is deleted), `a`, `x`,
`enter` (a task named `x` is added). -/
def readdedModel : model plainWidgets :=
  { spinner := (0 : Nat)
    quitting := false
    err := none
    currentMode := mode.normalMode
    normalList :=
      { list := [{ name := "two", id := 2 }, { name := "four", id := 4 },
                 { name := "five", id := 5 }, { name := "x", id := 6 }],
        cursor := 1 }
    completedList :=
      { list := [{ name := "completed-zero", id := 0 }, { name := "completed-one", id := 1 }],
        cursor := 1 }
    taskID := 7
    additionTextInput := ("" : String) }

/-- A browsing state on `plainWidgets` with the given lists and id counter. -/
def browsing (pending completed : TaskList) (taskID : Int) : model plainWidgets :=
  { spinner := (0 : Nat)
    quitting := false
    err := none
    currentMode := mode.normalMode
    normalList := pending
    completedList := completed
    taskID := taskID
    additionTextInput := ("" : String) }

/-- The state of the completion scenario, one pending task and nothing completed:
`initialModel()` after `d`, `d`, `d`, `s`, `d`, `d`, `s`. -/
def oneTaskModel : model plainWidgets :=
  browsing { list := [{ name := "two", id := 2 }], cursor := 0 } { list := [], cursor := 0 } 6

/-- The state of the insertion scenario: `additionMode`, two pending tasks, the id
counter at `6`, and `six` typed into the text input. -/
def typedSixModel : model plainWidgets :=
  { browsing
      { list := [{ name := "two", id := 2 }, { name := "three", id := 3 }], cursor := 0 }
      { list := [{ name := "completed-zero", id := 0 }, { name := "completed-one", id := 1 }],
        cursor := 1 } 6 with
    currentMode := mode.additionMode
    additionTextInput := ("six" : String) }

/-- The same state with only two spaces typed. -/
def typedBlankModel : model plainWidgets :=
  { typedSixModel with additionTextInput := ("  " : String) }

/-- The text input `x` keeps its text when it is handed the enter key (in the
`textinput` of the library no editing action is bound to that key). -/
def EnterKeepsText (w : Widgets) (x : w.Input) : Prop :=
  w.value (w.inputUpdate x (Msg.key keyEnter)) = w.value x

/-- The method `Reset` of the text input leaves it with the empty text. -/
def ResetClears (w : Widgets) : Prop :=
  ∀ x : w.Input, w.value (w.reset x) = ""

/-- A concrete `editingMode` state: `initialModel()` after `e` and `!`, the text
input holding `three!`. -/
def editedModel : model plainWidgets :=
  { initialModel plainWidgets with
    currentMode := mode.editingMode
    additionTextInput := ("three!" : String) }

/-- A concrete `editingMode` state with the text cleared: `initialModel()` after
`down`, `down`, `d`, `d` (pending is `[{2, two}, {3, three}]`, cursor `1`), `e` and
five `backspace`. -/
def clearedEditModel : model plainWidgets :=
  { initialModel plainWidgets with
    currentMode := mode.editingMode
    normalList :=
      { list := [{ name := "two", id := 2 }, { name := "three", id := 3 }], cursor := 1 }
    additionTextInput := ("" : String) }

/-- A concrete `editingMode` state with a blank text: `initialModel()` after `e`, five
`backspace` and one space. -/
def blankEditModel : model plainWidgets :=
  { initialModel plainWidgets with
    currentMode := mode.editingMode
    additionTextInput := (" " : String) }

/-- What one call of `Update` can do to the two lists and the id counter: nothing,
delete the task at a cursor, move the pending task at the cursor to the end of the
completed list, append a new pending task, or rename the pending task at the
cursor. -/
inductive StepShape (m m1 : model w) : Prop
  | same (hn : m1.normalList.list = m.normalList.list)
      (hc : m1.completedList.list = m.completedList.list) (ht : m1.taskID = m.taskID)
  | deletedPending
      (hr : 0 ≤ m.normalList.cursor ∧ m.normalList.cursor < (m.normalList.list.length : Int))
      (hn : m1.normalList.list = m.normalList.list.eraseIdx m.normalList.cursor.toNat)
      (hc : m1.completedList.list = m.completedList.list) (ht : m1.taskID = m.taskID)
  | deletedCompleted
      (hr : 0 ≤ m.completedList.cursor ∧
        m.completedList.cursor < (m.completedList.list.length : Int))
      (hn : m1.normalList.list = m.normalList.list)
      (hc : m1.completedList.list = m.completedList.list.eraseIdx m.completedList.cursor.toNat)
      (ht : m1.taskID = m.taskID)
  | moved (t : Task)
      (hr : 0 ≤ m.normalList.cursor ∧ m.normalList.cursor < (m.normalList.list.length : Int))
      (hidx : index m.normalList.list m.normalList.cursor = some t) (hname : t.name ≠ "")
      (hn : m1.normalList.list = m.normalList.list.eraseIdx m.normalList.cursor.toNat)
      (hc : m1.completedList.list = m.completedList.list ++ [t]) (ht : m1.taskID = m.taskID)
  | added (name : String) (hb : trimSpace name ≠ "")
      (hn : m1.normalList.list = m.normalList.list ++ [{ name := name, id := m.taskID }])
      (hc : m1.completedList.list = m.completedList.list) (ht : m1.taskID = m.taskID + 1)
  | renamed (t : Task) (name : String) (hne : name ≠ "")
      (hr : 0 ≤ m.normalList.cursor ∧ m.normalList.cursor < (m.normalList.list.length : Int))
      (hidx : index m.normalList.list m.normalList.cursor = some t)
      (hn : m1.normalList.list =
        m.normalList.list.set m.normalList.cursor.toNat { name := name, id := t.id })
      (hc : m1.completedList.list = m.completedList.list) (ht : m1.taskID = m.taskID)

/-- A concrete browsing state after a confirmed edit: `initialModel()` after `e` and
`enter`; the text input still holds `three`. -/
def staleModel : model plainWidgets :=
  { initialModel plainWidgets with additionTextInput := ("three" : String) }

/-- Every task of the two lists has a name other than the empty string. -/
def NamesOK (m : model w) : Prop :=
  ∀ t ∈ m.normalList.list ++ m.completedList.list, t.name ≠ ""

/-- The tasks of a state as a multiset: pending and completed together, order and
list membership forgotten. -/
def tasks (m : model w) : Multiset Task :=
  (↑(m.normalList.list ++ m.completedList.list) : Multiset Task)

/-- The text `Update` reads from the text input when it handles `msg` in
`additionMode` or `editingMode`: the input has been handed `msg` first. -/
def readText (w : Widgets) (m : model w) (msg : Msg) : String :=
  w.value (w.inputUpdate m.additionTextInput msg)

/-- What one call of `Update` does to the two lists of a state with named tasks,
with the mode and the message that make it do so. -/
inductive StepCause (w : Widgets) (m : model w) (msg : Msg) (m1 : model w) : Prop
  | same (hn : m1.normalList.list = m.normalList.list)
      (hc : m1.completedList.list = m.completedList.list)
  | moved (t : Task) (hm : m.currentMode = mode.normalMode) (hmsg : msg = Msg.key keyEnter)
      (hidx : index m.normalList.list m.normalList.cursor = some t)
      (hn : m1.normalList.list = m.normalList.list.eraseIdx m.normalList.cursor.toNat)
      (hc : m1.completedList.list = m.completedList.list ++ [t])
  | added (hm : m.currentMode = mode.additionMode) (hmsg : msg = Msg.key keyEnter)
      (hb : trimSpace (readText w m msg) ≠ "")
      (hn : m1.normalList.list =
        m.normalList.list ++ [{ name := readText w m msg, id := m.taskID }])
      (hc : m1.completedList.list = m.completedList.list)
  | deletedPendingByKey (t : Task) (hm : m.currentMode = mode.normalMode)
      (hmsg : msg = Msg.key "d")
      (hidx : index m.normalList.list m.normalList.cursor = some t)
      (hn : m1.normalList.list = m.normalList.list.eraseIdx m.normalList.cursor.toNat)
      (hc : m1.completedList.list = m.completedList.list)
  | deletedCompletedByKey (t : Task) (hm : m.currentMode = mode.completedMode)
      (hmsg : msg = Msg.key "d")
      (hidx : index m.completedList.list m.completedList.cursor = some t)
      (hn : m1.normalList.list = m.normalList.list)
      (hc : m1.completedList.list = m.completedList.list.eraseIdx m.completedList.cursor.toNat)
  | deletedByEdit (t : Task) (hm : m.currentMode = mode.editingMode)
      (hmsg : msg = Msg.key keyEnter) (hv : readText w m msg = "")
      (hidx : index m.normalList.list m.normalList.cursor = some t)
      (hn : m1.normalList.list = m.normalList.list.eraseIdx m.normalList.cursor.toNat)
      (hc : m1.completedList.list = m.completedList.list)
  | renamed (t : Task) (hm : m.currentMode = mode.editingMode)
      (hmsg : msg = Msg.key keyEnter) (hv : readText w m msg ≠ "")
      (hidx : index m.normalList.list m.normalList.cursor = some t)
      (hn : m1.normalList.list =
        m.normalList.list.set m.normalList.cursor.toNat
          { name := readText w m msg, id := t.id })
      (hc : m1.completedList.list = m.completedList.list)

/-! ## The removal loop -/

theorem removeLoop_past (c : Int) :
    ∀ (l : List Task) (i : Int) (acc : List Task), c < i → removeLoop c l i acc = acc ++ l := by
  intro l
  induction l with
  | nil => intro i acc _; simp [removeLoop]
  | cons t rest ih =>
    intro i acc h
    have hne : i ≠ c := by omega
    rw [removeLoop, ih (i + 1) _ (by omega)]
    simp [hne]

theorem removeLoop_eq (c : Int) :
    ∀ (l : List Task) (i : Int) (acc : List Task), i ≤ c →
      removeLoop c l i acc = acc ++ l.eraseIdx (c - i).toNat := by
  intro l
  induction l with
  | nil => intro i acc _; simp [removeLoop]
  | cons t rest ih =>
    intro i acc h
    by_cases hic : i = c
    · subst hic
      rw [removeLoop, removeLoop_past i rest (i + 1) _ (by omega)]
      simp
    · have hlt : i + 1 ≤ c := by omega
      have hk : (c - i).toNat = (c - (i + 1)).toNat + 1 := by omega
      rw [removeLoop, ih (i + 1) _ hlt, hk]
      simp [hic]

theorem removeLoop_zero (c : Int) (l : List Task) (h : 0 ≤ c) :
    removeLoop c l 0 [] = l.eraseIdx c.toNat := by
  have := removeLoop_eq c l 0 [] h
  simpa using this

/-! ## `removeTaskFromCurrentList` in closed form -/

theorem index_of_inRange (l : List Task) (c : Int) (h0 : 0 ≤ c) (h1 : c < (l.length : Int)) :
    ∃ t, index l c = some t ∧ l.get? c.toNat = some t := by
  have hlt : c.toNat < l.length := by omega
  refine ⟨l.get ⟨c.toNat, hlt⟩, ?_, ?_⟩
  · have hneg : ¬ c < 0 := by omega
    simp [index, hneg, List.getElem?_eq_getElem hlt]
  · simp [List.getElem?_eq_getElem hlt]

theorem clamp_eq (c n : Int) :
    (if (if c ≥ n - 1 then n - 1 - 1 else c) < 0 then 0
      else if c ≥ n - 1 then n - 1 - 1 else c) = max 0 (min c (n - 2)) := by
  split_ifs <;> omega

theorem remove_of_empty (m : model w) (md : mode) (tl : TaskList)
    (h : taskListPerMode m md = some tl) (he : tl.list = []) :
    removeTaskFromCurrentList m md = some (m, emptyTask) := by
  simp [removeTaskFromCurrentList, h, he]

theorem remove_of_inRange (m : model w) (md : mode) (tl : TaskList)
    (h : taskListPerMode m md = some tl) (h0 : 0 ≤ tl.cursor)
    (h1 : tl.cursor < (tl.list.length : Int)) :
    ∃ t, index tl.list tl.cursor = some t ∧
      removeTaskFromCurrentList m md =
        some (storeList m md
          { list := tl.list.eraseIdx tl.cursor.toNat,
            cursor := max 0 (min tl.cursor ((tl.list.length : Int) - 2)) }, t) := by
  obtain ⟨t, ht, _⟩ := index_of_inRange tl.list tl.cursor h0 h1
  refine ⟨t, ht, ?_⟩
  have hlen : tl.list.length ≠ 0 := by omega
  have hlt : tl.cursor.toNat < tl.list.length := by omega
  have hel : ((tl.list.eraseIdx tl.cursor.toNat).length : Int) = (tl.list.length : Int) - 1 := by
    rw [List.length_eraseIdx, if_pos hlt]
    omega
  simp only [removeTaskFromCurrentList, h, hlen, if_false, ht, removeLoop_zero _ _ h0, hel]
  rw [clamp_eq tl.cursor (tl.list.length : Int)]

theorem remove_cases (m : model w) (md : mode) (tl : TaskList)
    (h : taskListPerMode m md = some tl) (hc : CursorOK tl) :
    (tl.list = [] ∧ removeTaskFromCurrentList m md = some (m, emptyTask)) ∨
    (tl.list ≠ [] ∧ 0 ≤ tl.cursor ∧ tl.cursor < (tl.list.length : Int) ∧
      ∃ t, index tl.list tl.cursor = some t ∧
        removeTaskFromCurrentList m md =
          some (storeList m md
            { list := tl.list.eraseIdx tl.cursor.toNat,
              cursor := max 0 (min tl.cursor ((tl.list.length : Int) - 2)) }, t)) := by
  rcases hc with ⟨h0, h1⟩ | ⟨he, _⟩
  · right
    have hne : tl.list ≠ [] := by
      intro he
      rw [he] at h1
      simp at h1
      omega
    exact ⟨hne, h0, h1, remove_of_inRange m md tl h h0 h1⟩
  · left
    exact ⟨he, remove_of_empty m md tl h he⟩

theorem cursorOK_erase (tl : TaskList) (h0 : 0 ≤ tl.cursor)
    (h1 : tl.cursor < (tl.list.length : Int)) :
    CursorOK { list := tl.list.eraseIdx tl.cursor.toNat,
               cursor := max 0 (min tl.cursor ((tl.list.length : Int) - 2)) } := by
  have hlt : tl.cursor.toNat < tl.list.length := by omega
  have hel : ((tl.list.eraseIdx tl.cursor.toNat).length : Int) = (tl.list.length : Int) - 1 := by
    rw [List.length_eraseIdx, if_pos hlt]
    omega
  by_cases hone : tl.list.length = 1
  · right
    refine ⟨?_, ?_⟩
    · apply List.eq_nil_of_length_eq_zero
      have : ((tl.list.eraseIdx tl.cursor.toNat).length : Int) = 0 := by rw [hel]; omega
      exact_mod_cast this
    · show max 0 (min tl.cursor ((tl.list.length : Int) - 2)) = 0
      omega
  · left
    show 0 ≤ max 0 (min tl.cursor ((tl.list.length : Int) - 2)) ∧
      max 0 (min tl.cursor ((tl.list.length : Int) - 2)) <
        ((tl.list.eraseIdx tl.cursor.toNat).length : Int)
    rw [hel]
    omega

theorem cursorOK_append (tl : TaskList) (t : Task) (h : CursorOK tl) :
    CursorOK { tl with list := tl.list ++ [t] } := by
  left
  rcases h with ⟨h0, h1⟩ | ⟨he, hc⟩
  · refine ⟨h0, ?_⟩
    show tl.cursor < ((tl.list ++ [t]).length : Int)
    simp
    omega
  · refine ⟨by show 0 ≤ tl.cursor; omega, ?_⟩
    show tl.cursor < ((tl.list ++ [t]).length : Int)
    simp [he, hc]

/-! ## `Update`, branch by branch -/

theorem Update_addition_other (m : model w) (msg : Msg)
    (hm : m.currentMode = mode.additionMode) (hk : msg ≠ Msg.key keyEnter) :
    Update w m msg =
      some ({ m with additionTextInput := w.inputUpdate m.additionTextInput msg }, Cmd.input) := by
  simp [Update, hm, hk]

theorem Update_addition_blank (m : model w)
    (hm : m.currentMode = mode.additionMode)
    (hb : trimSpace (w.value (w.inputUpdate m.additionTextInput (Msg.key keyEnter))) = "") :
    Update w m (Msg.key keyEnter) =
      some ({ m with
        additionTextInput := w.reset (w.inputUpdate m.additionTextInput (Msg.key keyEnter))
        currentMode := mode.normalMode }, Cmd.nil) := by
  simp [Update, hm, hb]

theorem Update_addition_insert (m : model w)
    (hm : m.currentMode = mode.additionMode)
    (hb : trimSpace (w.value (w.inputUpdate m.additionTextInput (Msg.key keyEnter))) ≠ "") :
    Update w m (Msg.key keyEnter) =
      some ({ m with
        additionTextInput := w.reset (w.inputUpdate m.additionTextInput (Msg.key keyEnter))
        taskID := m.taskID + 1
        normalList :=
          { m.normalList with
            list := m.normalList.list ++
              [{ name := w.value (w.inputUpdate m.additionTextInput (Msg.key keyEnter)),
                 id := m.taskID }] }
        currentMode := mode.normalMode }, Cmd.nil) := by
  simp [Update, hm, hb, taskListPerMode, storeList]

theorem Update_editing_other (m : model w) (msg : Msg)
    (hm : m.currentMode = mode.editingMode) (hk : msg ≠ Msg.key keyEnter) :
    Update w m msg =
      some ({ m with additionTextInput := w.inputUpdate m.additionTextInput msg }, Cmd.input) := by
  simp [Update, hm, hk]

theorem Update_editing_empty (m : model w)
    (hm : m.currentMode = mode.editingMode)
    (hb : w.value (w.inputUpdate m.additionTextInput (Msg.key keyEnter)) = "") :
    Update w m (Msg.key keyEnter) =
      match removeTaskFromCurrentList
          { m with additionTextInput := w.inputUpdate m.additionTextInput (Msg.key keyEnter) }
          mode.normalMode with
      | none => none
      | some (m2, _) => some ({ m2 with currentMode := mode.normalMode }, Cmd.nil) := by
  simp [Update, hm, hb]

theorem Update_editing_rename (m : model w)
    (hm : m.currentMode = mode.editingMode)
    (hb : w.value (w.inputUpdate m.additionTextInput (Msg.key keyEnter)) ≠ "") :
    Update w m (Msg.key keyEnter) =
      match setName m.normalList.list m.normalList.cursor
          (w.value (w.inputUpdate m.additionTextInput (Msg.key keyEnter))) with
      | none => none
      | some l =>
        some ({ m with
          additionTextInput := w.inputUpdate m.additionTextInput (Msg.key keyEnter)
          normalList := { m.normalList with list := l }
          currentMode := mode.normalMode }, Cmd.nil) := by
  simp only [Update, hm, hb, taskListPerMode, storeList]
  simp

theorem Update_err (m : model w) (e : String)
    (ha : m.currentMode ≠ mode.additionMode) (he : m.currentMode ≠ mode.editingMode) :
    Update w m (Msg.err e) = some ({ m with err := some e }, Cmd.nil) := by
  simp [Update, ha, he]

theorem Update_other (m : model w) (n : Nat)
    (ha : m.currentMode ≠ mode.additionMode) (he : m.currentMode ≠ mode.editingMode) :
    Update w m (Msg.other n) =
      some ({ m with spinner := w.spinnerUpdate m.spinner (Msg.other n) }, Cmd.spinner) := by
  simp [Update, ha, he]

theorem Update_quit (m : model w) (k : String)
    (ha : m.currentMode ≠ mode.additionMode) (he : m.currentMode ≠ mode.editingMode)
    (hk : k ∈ quitKeys) :
    Update w m (Msg.key k) = some ({ m with quitting := true }, Cmd.quit) := by
  simp [Update, ha, he, hk]

theorem Update_toggle_normal (m : model w) (hm : m.currentMode = mode.normalMode) :
    Update w m (Msg.key "s") =
      some ({ m with currentMode := mode.completedMode }, Cmd.nil) := by
  simp [Update, hm, quitKeys]

theorem Update_toggle_completed (m : model w) (hm : m.currentMode = mode.completedMode) :
    Update w m (Msg.key "s") =
      some ({ m with currentMode := mode.normalMode }, Cmd.nil) := by
  simp [Update, hm, quitKeys]

theorem Update_up (m : model w) (k : String) (tl : TaskList)
    (ha : m.currentMode ≠ mode.additionMode) (he : m.currentMode ≠ mode.editingMode)
    (hk : k = keyUp ∨ k = keyLeft) (hl : taskListPerMode m m.currentMode = some tl) :
    Update w m (Msg.key k) =
      some (if tl.cursor > 0
        then storeList m m.currentMode { tl with cursor := tl.cursor - 1 } else m, Cmd.nil) := by
  rcases hk with rfl | rfl <;>
    simp [Update, ha, he, hl, quitKeys, keyUp, keyLeft] <;> split_ifs <;> rfl

theorem Update_down (m : model w) (k : String) (tl : TaskList)
    (ha : m.currentMode ≠ mode.additionMode) (he : m.currentMode ≠ mode.editingMode)
    (hk : k = keyDown ∨ k = keyRight) (hl : taskListPerMode m m.currentMode = some tl) :
    Update w m (Msg.key k) =
      some (if tl.cursor < (tl.list.length : Int) - 1
        then storeList m m.currentMode { tl with cursor := tl.cursor + 1 } else m, Cmd.nil) := by
  rcases hk with rfl | rfl <;>
    simp [Update, ha, he, hl, quitKeys, keyUp, keyLeft, keyDown, keyRight] <;>
    split_ifs <;> rfl

theorem Update_enter_normal (m : model w) (hm : m.currentMode = mode.normalMode) :
    Update w m (Msg.key keyEnter) =
      match removeTaskFromCurrentList m mode.normalMode with
      | none => none
      | some (m1, curTask) =>
        if curTask.name ≠ "" then
          some ({ m1 with
            completedList :=
              { m1.completedList with list := m1.completedList.list ++ [curTask] } }, Cmd.nil)
        else some (m1, Cmd.nil) := by
  simp [Update, hm, quitKeys, keyUp, keyLeft, keyDown, keyRight, keyEnter, taskListPerMode,
    storeList]

theorem Update_enter_completed (m : model w) (hm : m.currentMode = mode.completedMode) :
    Update w m (Msg.key keyEnter) = some (m, Cmd.nil) := by
  simp [Update, hm, quitKeys, keyUp, keyLeft, keyDown, keyRight, keyEnter]

theorem Update_d (m : model w)
    (ha : m.currentMode ≠ mode.additionMode) (he : m.currentMode ≠ mode.editingMode) :
    Update w m (Msg.key "d") =
      match removeTaskFromCurrentList m m.currentMode with
      | none => none
      | some (m1, _) => some (m1, Cmd.nil) := by
  simp [Update, ha, he, quitKeys, keyUp, keyLeft, keyDown, keyRight, keyEnter]

theorem Update_a (m : model w)
    (ha : m.currentMode ≠ mode.additionMode) (he : m.currentMode ≠ mode.editingMode) :
    Update w m (Msg.key "a") =
      some ({ m with currentMode := mode.additionMode }, Cmd.blink) := by
  simp [Update, ha, he, quitKeys, keyUp, keyLeft, keyDown, keyRight, keyEnter]

theorem Update_e_completed (m : model w) (hm : m.currentMode = mode.completedMode) :
    Update w m (Msg.key "e") = some (m, Cmd.nil) := by
  simp [Update, hm, quitKeys, keyUp, keyLeft, keyDown, keyRight, keyEnter]

theorem Update_e_normal (m : model w) (hm : m.currentMode = mode.normalMode) :
    Update w m (Msg.key "e") =
      if m.normalList.list.length = 0 then some (m, Cmd.nil)
      else
        match index m.normalList.list m.normalList.cursor with
        | none => none
        | some task =>
          some ({ m with
            additionTextInput := w.setValue m.additionTextInput task.name
            currentMode := mode.editingMode }, Cmd.blink) := by
  simp [Update, hm, quitKeys, keyUp, keyLeft, keyDown, keyRight, keyEnter, taskListPerMode]

theorem Update_unbound (m : model w) (k : String)
    (ha : m.currentMode ≠ mode.additionMode) (he : m.currentMode ≠ mode.editingMode)
    (hq : k ∉ quitKeys) (hs : k ≠ "s") (hu : k ≠ keyUp) (hl : k ≠ keyLeft) (hd : k ≠ keyDown)
    (hr : k ≠ keyRight) (hn : k ≠ keyEnter) (hdel : k ≠ "d") (hadd : k ≠ "a") (hed : k ≠ "e") :
    Update w m (Msg.key k) = some (m, Cmd.nil) := by
  simp [Update, ha, he, hq, hs, hu, hl, hd, hr, hn, hdel, hadd, hed]

/-! ## The invariant is kept, and `Update` does not panic -/

theorem lookup_browsing (m : model w)
    (ha : m.currentMode ≠ mode.additionMode) (he : m.currentMode ≠ mode.editingMode) :
    (m.currentMode = mode.normalMode ∧ taskListPerMode m m.currentMode = some m.normalList) ∨
    (m.currentMode = mode.completedMode ∧
      taskListPerMode m m.currentMode = some m.completedList) := by
  cases hm : m.currentMode
  · left; simp [taskListPerMode]
  · right; simp [taskListPerMode]
  · exact absurd hm ha
  · exact absurd hm he

theorem cursorOK_nonempty (tl : TaskList) (h : CursorOK tl) (hne : tl.list ≠ []) :
    0 ≤ tl.cursor ∧ tl.cursor < (tl.list.length : Int) := by
  rcases h with h | ⟨he, _⟩
  · exact h
  · exact absurd he hne

theorem cursorOK_up (tl : TaskList) (h : CursorOK tl) (hpos : tl.cursor > 0) :
    CursorOK { tl with cursor := tl.cursor - 1 } := by
  rcases h with ⟨h0, h1⟩ | ⟨_, hc⟩
  · left
    show 0 ≤ tl.cursor - 1 ∧ tl.cursor - 1 < (tl.list.length : Int)
    omega
  · omega

theorem cursorOK_down (tl : TaskList) (h : CursorOK tl)
    (hlt : tl.cursor < (tl.list.length : Int) - 1) :
    CursorOK { tl with cursor := tl.cursor + 1 } := by
  rcases h with ⟨h0, h1⟩ | ⟨he, hc⟩
  · left
    show 0 ≤ tl.cursor + 1 ∧ tl.cursor + 1 < (tl.list.length : Int)
    omega
  · rw [he] at hlt
    simp at hlt
    omega

theorem remove_frame (m m1 : model w) (md : mode) (t : Task)
    (h : removeTaskFromCurrentList m md = some (m1, t)) :
    m1.currentMode = m.currentMode ∧ m1.taskID = m.taskID ∧
      m1.additionTextInput = m.additionTextInput ∧ m1.quitting = m.quitting ∧
      m1.err = m.err ∧ m1.spinner = m.spinner := by
  unfold removeTaskFromCurrentList at h
  cases md <;> simp only [taskListPerMode] at h
  · by_cases hlen : m.normalList.list.length = 0
    · simp only [hlen, if_true, Option.some.injEq, Prod.mk.injEq] at h
      obtain ⟨rfl, _⟩ := h
      simp
    · cases hidx : index m.normalList.list m.normalList.cursor with
      | none => simp [hlen, hidx] at h
      | some t1 =>
        simp only [hlen, if_false, hidx, Option.some.injEq, Prod.mk.injEq] at h
        obtain ⟨rfl, _⟩ := h
        simp [storeList]
  · by_cases hlen : m.completedList.list.length = 0
    · simp only [hlen, if_true, Option.some.injEq, Prod.mk.injEq] at h
      obtain ⟨rfl, _⟩ := h
      simp
    · cases hidx : index m.completedList.list m.completedList.cursor with
      | none => simp [hlen, hidx] at h
      | some t1 =>
        simp only [hlen, if_false, hidx, Option.some.injEq, Prod.mk.injEq] at h
        obtain ⟨rfl, _⟩ := h
        simp [storeList]
  · simp at h
  · simp at h

theorem Update_inv (m : model w) (msg : Msg) (hI : Inv m) :
    ∃ m1 c, Update w m msg = some (m1, c) ∧ Inv m1 ∧ StepShape m m1 := by
  have hI0 := hI
  obtain ⟨hN, hC, hE⟩ := hI
  have hsame : StepShape m m := StepShape.same rfl rfl rfl
  by_cases ha : m.currentMode = mode.additionMode
  · by_cases hk : msg = Msg.key keyEnter
    · subst hk
      by_cases hb : trimSpace (w.value (w.inputUpdate m.additionTextInput (Msg.key keyEnter))) = ""
      · exact ⟨_, _, Update_addition_blank m ha hb, ⟨hN, hC, by simp⟩, StepShape.same rfl rfl rfl⟩
      · exact ⟨_, _, Update_addition_insert m ha hb, ⟨cursorOK_append _ _ hN, hC, by simp⟩,
          StepShape.added _ hb rfl rfl rfl⟩
    · exact ⟨_, _, Update_addition_other m msg ha hk, ⟨hN, hC, by simp [ha]⟩,
        StepShape.same rfl rfl rfl⟩
  by_cases he : m.currentMode = mode.editingMode
  · by_cases hk : msg = Msg.key keyEnter
    · subst hk
      obtain ⟨h0, h1⟩ := cursorOK_nonempty _ hN (hE he)
      by_cases hb : w.value (w.inputUpdate m.additionTextInput (Msg.key keyEnter)) = ""
      · obtain ⟨t, _, hr⟩ := remove_of_inRange
          { m with additionTextInput := w.inputUpdate m.additionTextInput (Msg.key keyEnter) }
          mode.normalMode m.normalList rfl h0 h1
        rw [Update_editing_empty m he hb, hr]
        exact ⟨_, _, rfl, ⟨cursorOK_erase _ h0 h1, hC, by simp⟩,
          StepShape.deletedPending ⟨h0, h1⟩ rfl rfl rfl⟩
      · obtain ⟨t, ht, _⟩ := index_of_inRange _ _ h0 h1
        refine ⟨{ m with
          additionTextInput := w.inputUpdate m.additionTextInput (Msg.key keyEnter)
          normalList :=
            { list := m.normalList.list.set m.normalList.cursor.toNat
                { name := w.value (w.inputUpdate m.additionTextInput (Msg.key keyEnter)),
                  id := t.id },
              cursor := m.normalList.cursor }
          currentMode := mode.normalMode }, Cmd.nil, ?_, ?_, ?_⟩
        · rw [Update_editing_rename m he hb]
          simp only [setName, ht]
        · refine ⟨?_, hC, by simp⟩
          left
          show 0 ≤ m.normalList.cursor ∧
            m.normalList.cursor < ((m.normalList.list.set _ _).length : Int)
          rw [List.length_set]
          exact ⟨h0, h1⟩
        · exact StepShape.renamed t _ hb ⟨h0, h1⟩ ht rfl rfl rfl
    · exact ⟨_, _, Update_editing_other m msg he hk, ⟨hN, hC, fun _ => hE he⟩,
        StepShape.same rfl rfl rfl⟩
  cases msg with
  | err e => exact ⟨_, _, Update_err m e ha he, ⟨hN, hC, hE⟩, StepShape.same rfl rfl rfl⟩
  | other n => exact ⟨_, _, Update_other m n ha he, ⟨hN, hC, hE⟩, StepShape.same rfl rfl rfl⟩
  | key k =>
    by_cases hq : k ∈ quitKeys
    · exact ⟨_, _, Update_quit m k ha he hq, ⟨hN, hC, hE⟩, StepShape.same rfl rfl rfl⟩
    by_cases hs : k = "s"
    · subst hs
      rcases lookup_browsing m ha he with ⟨hm, _⟩ | ⟨hm, _⟩
      · exact ⟨_, _, Update_toggle_normal m hm, ⟨hN, hC, by simp⟩, StepShape.same rfl rfl rfl⟩
      · exact ⟨_, _, Update_toggle_completed m hm, ⟨hN, hC, by simp⟩,
          StepShape.same rfl rfl rfl⟩
    by_cases hu : k = keyUp ∨ k = keyLeft
    · rcases lookup_browsing m ha he with ⟨hm, hl⟩ | ⟨hm, hl⟩
      · refine ⟨_, _, Update_up m k _ ha he hu hl, ?_⟩
        split_ifs with hpos
        · rw [hm]
          exact ⟨⟨cursorOK_up _ hN hpos, hC, by simp [storeList, hm]⟩,
            StepShape.same rfl rfl rfl⟩
        · exact ⟨hI0, hsame⟩
      · refine ⟨_, _, Update_up m k _ ha he hu hl, ?_⟩
        split_ifs with hpos
        · rw [hm]
          exact ⟨⟨hN, cursorOK_up _ hC hpos, by simp [storeList, hm]⟩,
            StepShape.same rfl rfl rfl⟩
        · exact ⟨hI0, hsame⟩
    by_cases hd : k = keyDown ∨ k = keyRight
    · rcases lookup_browsing m ha he with ⟨hm, hl⟩ | ⟨hm, hl⟩
      · refine ⟨_, _, Update_down m k _ ha he hd hl, ?_⟩
        split_ifs with hpos
        · rw [hm]
          exact ⟨⟨cursorOK_down _ hN hpos, hC, by simp [storeList, hm]⟩,
            StepShape.same rfl rfl rfl⟩
        · exact ⟨hI0, hsame⟩
      · refine ⟨_, _, Update_down m k _ ha he hd hl, ?_⟩
        split_ifs with hpos
        · rw [hm]
          exact ⟨⟨hN, cursorOK_down _ hC hpos, by simp [storeList, hm]⟩,
            StepShape.same rfl rfl rfl⟩
        · exact ⟨hI0, hsame⟩
    by_cases hn : k = keyEnter
    · subst hn
      rcases lookup_browsing m ha he with ⟨hm, _⟩ | ⟨hm, _⟩
      · have hne : m.currentMode ≠ mode.editingMode := he
        rcases remove_cases m mode.normalMode m.normalList rfl hN with
          ⟨_, hr⟩ | ⟨_, h0, h1, t, ht, hr⟩
        · refine ⟨m, Cmd.nil, ?_, hI0, hsame⟩
          rw [Update_enter_normal m hm, hr]
          simp [emptyTask]
        · by_cases hname : t.name ≠ ""
          · rw [Update_enter_normal m hm, hr]
            dsimp only
            rw [if_pos hname]
            exact ⟨_, _, rfl,
              ⟨cursorOK_erase _ h0 h1, cursorOK_append _ _ hC, fun h => absurd h hne⟩,
              StepShape.moved t ⟨h0, h1⟩ ht hname rfl rfl rfl⟩
          · rw [Update_enter_normal m hm, hr]
            dsimp only
            rw [if_neg hname]
            exact ⟨_, _, rfl, ⟨cursorOK_erase _ h0 h1, hC, fun h => absurd h hne⟩,
              StepShape.deletedPending ⟨h0, h1⟩ rfl rfl rfl⟩
      · exact ⟨_, _, Update_enter_completed m hm, hI0, hsame⟩
    by_cases hdel : k = "d"
    · subst hdel
      have hne : m.currentMode ≠ mode.editingMode := he
      rcases lookup_browsing m ha he with ⟨hm, hl⟩ | ⟨hm, hl⟩
      · rcases remove_cases m m.currentMode m.normalList hl hN with
          ⟨_, hr⟩ | ⟨_, h0, h1, t, ht, hr⟩
        · refine ⟨m, Cmd.nil, ?_, hI0, hsame⟩
          rw [Update_d m ha he, hr]
        · rw [Update_d m ha he, hr, hm]
          exact ⟨_, _, rfl, ⟨cursorOK_erase _ h0 h1, hC, fun h => absurd h hne⟩,
            StepShape.deletedPending ⟨h0, h1⟩ rfl rfl rfl⟩
      · rcases remove_cases m m.currentMode m.completedList hl hC with
          ⟨_, hr⟩ | ⟨_, h0, h1, t, ht, hr⟩
        · refine ⟨m, Cmd.nil, ?_, hI0, hsame⟩
          rw [Update_d m ha he, hr]
        · rw [Update_d m ha he, hr, hm]
          exact ⟨_, _, rfl, ⟨hN, cursorOK_erase _ h0 h1, fun h => absurd h hne⟩,
            StepShape.deletedCompleted ⟨h0, h1⟩ rfl rfl rfl⟩
    by_cases hadd : k = "a"
    · subst hadd
      exact ⟨_, _, Update_a m ha he, ⟨hN, hC, by simp⟩, StepShape.same rfl rfl rfl⟩
    by_cases hed : k = "e"
    · subst hed
      rcases lookup_browsing m ha he with ⟨hm, _⟩ | ⟨hm, _⟩
      · by_cases hlen : m.normalList.list.length = 0
        · refine ⟨m, Cmd.nil, ?_, hI0, hsame⟩
          rw [Update_e_normal m hm, if_pos hlen]
        · have hnil : m.normalList.list ≠ [] := by
            intro h
            rw [h] at hlen
            simp at hlen
          obtain ⟨h0, h1⟩ := cursorOK_nonempty _ hN hnil
          obtain ⟨t, ht, _⟩ := index_of_inRange _ _ h0 h1
          refine ⟨{ m with
            additionTextInput := w.setValue m.additionTextInput t.name
            currentMode := mode.editingMode }, Cmd.blink, ?_, ⟨hN, hC, fun _ => hnil⟩,
            StepShape.same rfl rfl rfl⟩
          rw [Update_e_normal m hm, if_neg hlen, ht]
      · exact ⟨_, _, Update_e_completed m hm, hI0, hsame⟩
    have hu1 : k ≠ keyUp := fun h => hu (Or.inl h)
    have hu2 : k ≠ keyLeft := fun h => hu (Or.inr h)
    have hd1 : k ≠ keyDown := fun h => hd (Or.inl h)
    have hd2 : k ≠ keyRight := fun h => hd (Or.inr h)
    exact ⟨_, _, Update_unbound m k ha he hq hs hu1 hu2 hd1 hd2 hn hdel hadd hed, hI0, hsame⟩

theorem inv_init (w : Widgets) : Inv (initialModel w) := by
  refine ⟨Or.inl ?_, Or.inl ?_, ?_⟩
  · simp [initialModel]
  · simp [initialModel]
  · simp [initialModel]

theorem inv_of_reachable (m : model w) (h : Reachable w m) : Inv m := by
  induction h with
  | init => exact inv_init w
  | step msg _ hstep ih =>
    obtain ⟨m2, c2, hu, hI, _⟩ := Update_inv _ msg ih
    rw [hu] at hstep
    simp only [Option.some.injEq, Prod.mk.injEq] at hstep
    obtain ⟨rfl, _⟩ := hstep
    exact hI

/-! ## Ids -/

theorem index_get (l : List Task) (c : Int) (t : Task) (h : index l c = some t) :
    l.get? c.toNat = some t := by
  unfold index at h
  split_ifs at h
  exact h

theorem perm_eraseIdx :
    ∀ (l : List Task) (i : Nat) (t : Task), l.get? i = some t →
      List.Perm l (t :: l.eraseIdx i)
  | [], _, _, h => by simp at h
  | a :: l, 0, t, h => by
    simp at h
    subst h
    simp
  | a :: l, i + 1, t, h => by
    simp at h
    have ih := perm_eraseIdx l i t (by simpa using h)
    simp only [List.eraseIdx_cons_succ]
    exact (List.Perm.cons a ih).trans (List.Perm.swap t a _)

theorem map_id_set :
    ∀ (l : List Task) (i : Nat) (t : Task) (name : String), l.get? i = some t →
      (l.set i { name := name, id := t.id }).map Task.id = l.map Task.id
  | [], _, _, _, h => by simp at h
  | a :: l, 0, t, name, h => by
    simp at h
    subst h
    simp
  | a :: l, i + 1, t, name, h => by
    simp at h
    have ih := map_id_set l i t name (by simpa using h)
    simp only [List.set_cons_succ, List.map_cons, ih]

theorem shape_ids (m m1 : model w) (hs : StepShape m m1) :
    m.taskID ≤ m1.taskID ∧
    (∀ i ∈ ids m1, i ∈ ids m ∨ (i = m.taskID ∧ m1.taskID = m.taskID + 1)) ∧
    ((ids m).Nodup → m.taskID ∉ ids m → (ids m1).Nodup) := by
  cases hs with
  | same hn hc ht =>
    have hid : ids m1 = ids m := by simp only [ids, hn, hc]
    rw [hid, ht]
    exact ⟨le_refl _, fun i hi => Or.inl hi, fun h _ => h⟩
  | deletedPending hr hn hc ht =>
    have hsub : List.Sublist (ids m1) (ids m) := by
      simp only [ids, hn, hc]
      exact ((List.eraseIdx_sublist _ _).append_right _).map _
    rw [ht]
    exact ⟨le_refl _, fun i hi => Or.inl (hsub.subset hi), fun h _ => h.sublist hsub⟩
  | deletedCompleted hr hn hc ht =>
    have hsub : List.Sublist (ids m1) (ids m) := by
      simp only [ids, hn, hc]
      exact ((List.eraseIdx_sublist _ _).append_left _).map _
    rw [ht]
    exact ⟨le_refl _, fun i hi => Or.inl (hsub.subset hi), fun h _ => h.sublist hsub⟩
  | moved t hr hidx hname hn hc ht =>
    have hp : List.Perm (ids m1) (ids m) := by
      simp only [ids, hn, hc]
      apply List.Perm.map
      have h1 := perm_eraseIdx _ _ t (index_get _ _ _ hidx)
      have h2 : List.Perm
          (m.normalList.list.eraseIdx m.normalList.cursor.toNat ++ (m.completedList.list ++ [t]))
          (t :: m.normalList.list.eraseIdx m.normalList.cursor.toNat ++ m.completedList.list) := by
        rw [← List.append_assoc]
        exact List.perm_append_singleton _ _
      exact h2.trans (List.Perm.append_right _ h1.symm)
    rw [ht]
    exact ⟨le_refl _, fun i hi => Or.inl (hp.subset hi), fun h _ => (hp.nodup_iff).2 h⟩
  | added name hb hn hc ht =>
    have hp : List.Perm (ids m1) (m.taskID :: ids m) := by
      simp only [ids, hn, hc, List.append_assoc, List.singleton_append, List.map_append,
        List.map_cons]
      exact List.perm_middle
    rw [ht]
    refine ⟨by omega, fun i hi => ?_, fun h hnot => (hp.nodup_iff).2 (List.nodup_cons.2 ⟨hnot, h⟩)⟩
    rcases List.mem_cons.1 (hp.subset hi) with h | h
    · exact Or.inr ⟨h, rfl⟩
    · exact Or.inl h
  | renamed t name hne hr hidx hn hc ht =>
    have hid : ids m1 = ids m := by
      simp only [ids, hn, hc, List.map_append, map_id_set _ _ t name (index_get _ _ _ hidx)]
    rw [hid, ht]
    exact ⟨le_refl _, fun i hi => Or.inl hi, fun h _ => h⟩

theorem issued_inv (log : List Int) (m : model w) (h : Issued w log m) :
    Inv m ∧ (ids m).Nodup ∧ (∀ i ∈ ids m, i < m.taskID) ∧ log.Nodup ∧
      (∀ i ∈ log, i < m.taskID) ∧ (∀ i ∈ ids m, i ∈ log) := by
  induction h with
  | init =>
    refine ⟨inv_init w, ?_, ?_, ?_, ?_, fun i hi => hi⟩ <;>
      simp [ids, initialModel]
  | @step log m m1 c msg _ hstep ih =>
    obtain ⟨hI, hnd, hlt, hlog, hloglt, hsub⟩ := ih
    obtain ⟨m2, c2, hu, hI2, hshape⟩ := Update_inv m msg hI
    rw [hu] at hstep
    simp only [Option.some.injEq, Prod.mk.injEq] at hstep
    obtain ⟨rfl, _⟩ := hstep
    obtain ⟨hle, hnew, hnd2⟩ := shape_ids m m2 hshape
    have hfresh : m.taskID ∉ ids m := fun hmem => lt_irrefl _ (hlt _ hmem)
    have hF : ∀ i ∈ (ids m2).filter (fun i => decide (i ∉ ids m)),
        i = m.taskID ∧ m2.taskID = m.taskID + 1 := by
      intro i hi
      rw [List.mem_filter] at hi
      obtain ⟨hi1, hi2⟩ := hi
      rcases hnew i hi1 with h | h
      · simp [h] at hi2
      · exact h
    refine ⟨hI2, hnd2 hnd hfresh, ?_, ?_, ?_, ?_⟩
    · intro i hi
      rcases hnew i hi with h | ⟨h1, h2⟩
      · exact lt_of_lt_of_le (hlt i h) hle
      · omega
    · rw [List.nodup_append]
      refine ⟨hlog, (hnd2 hnd hfresh).filter _, ?_⟩
      intro i hi1 hi2
      have := hloglt i hi1
      have := (hF i hi2).1
      omega
    · intro i hi
      rcases List.mem_append.1 hi with h | h
      · exact lt_of_lt_of_le (hloglt i h) hle
      · obtain ⟨h1, h2⟩ := hF i h
        omega
    · intro i hi
      by_cases hmem : i ∈ ids m
      · exact List.mem_append.2 (Or.inl (hsub i hmem))
      · exact List.mem_append.2 (Or.inr (List.mem_filter.2 ⟨hi, by simp [hmem]⟩))

theorem reachable_of_issued (log : List Int) (m : model w) (h : Issued w log m) :
    Reachable w m := by
  induction h with
  | init => exact Reachable.init
  | step msg _ hstep ih => exact Reachable.step msg ih hstep

theorem issued_of_reachable (m : model w) (h : Reachable w m) : ∃ log, Issued w log m := by
  induction h with
  | init => exact ⟨_, Issued.init⟩
  | step msg _ hstep ih =>
    obtain ⟨log, hl⟩ := ih
    exact ⟨_, Issued.step msg hl hstep⟩

theorem issued_run (log : List Int) (m : model w) (h : Issued w log m) :
    ∀ (msgs : List Msg) (log1 : List Int) (m1 : model w),
      runIssued w log m msgs = some (log1, m1) → Issued w log1 m1 := by
  intro msgs
  induction msgs generalizing log m with
  | nil =>
    intro log1 m1 hr
    simp only [runIssued, Option.some.injEq, Prod.mk.injEq] at hr
    obtain ⟨rfl, rfl⟩ := hr
    exact h
  | cons msg rest ih =>
    intro log1 m1 hr
    simp only [runIssued] at hr
    cases hu : Update w m msg with
    | none => simp [hu] at hr
    | some r =>
      obtain ⟨m2, c⟩ := r
      simp only [hu] at hr
      exact ih _ m2 (Issued.step msg h hu) log1 m1 hr

theorem readdedModel_issued : Issued plainWidgets [2, 3, 4, 5, 0, 1, 6] readdedModel :=
  issued_run _ (initialModel plainWidgets) Issued.init
    [Msg.key "d", Msg.key "a", Msg.key "x", Msg.key "enter"] _ readdedModel rfl

theorem reachable_run (m : model w) (h : Reachable w m) :
    ∀ (msgs : List Msg) (m1 : model w), run w m msgs = some m1 → Reachable w m1 := by
  intro msgs
  induction msgs generalizing m with
  | nil =>
    intro m1 hr
    simp only [run, Option.some.injEq] at hr
    exact hr ▸ h
  | cons msg rest ih =>
    intro m1 hr
    simp only [run] at hr
    cases hu : Update w m msg with
    | none => simp [hu] at hr
    | some r =>
      obtain ⟨m2, c⟩ := r
      simp only [hu] at hr
      exact ih m2 (Reachable.step msg h hu) m1 hr

theorem emptiedModel_reachable : Reachable plainWidgets emptiedModel :=
  reachable_run (initialModel plainWidgets) Reachable.init
    [Msg.key "d", Msg.key "d", Msg.key "d", Msg.key "d"] emptiedModel rfl

theorem oneTaskModel_reachable : Reachable plainWidgets oneTaskModel :=
  reachable_run (initialModel plainWidgets) Reachable.init
    [Msg.key "d", Msg.key "d", Msg.key "d", Msg.key "s", Msg.key "d", Msg.key "d",
     Msg.key "s"] oneTaskModel rfl

theorem editedModel_reachable : Reachable plainWidgets editedModel :=
  reachable_run (initialModel plainWidgets) Reachable.init
    [Msg.key "e", Msg.key "!"] editedModel rfl

theorem clearedEditModel_reachable : Reachable plainWidgets clearedEditModel :=
  reachable_run (initialModel plainWidgets) Reachable.init
    [Msg.key "down", Msg.key "down", Msg.key "d", Msg.key "d", Msg.key "e",
     Msg.key "backspace", Msg.key "backspace", Msg.key "backspace", Msg.key "backspace",
     Msg.key "backspace"] clearedEditModel rfl

theorem blankEditModel_reachable : Reachable plainWidgets blankEditModel :=
  reachable_run (initialModel plainWidgets) Reachable.init
    [Msg.key "e", Msg.key "backspace", Msg.key "backspace", Msg.key "backspace",
     Msg.key "backspace", Msg.key "backspace", Msg.key " "] blankEditModel rfl

theorem ne_empty_of_not_blank (b : String) (hb : trimSpace b ≠ "") : b ≠ "" := by
  intro h
  apply hb
  rw [h]
  rfl

theorem getOpt_set_id :
    ∀ (l : List Task) (i : Nat) (t : Task) (name : String), l.get? i = some t →
      (l.set i { name := name, id := t.id }).get? i = some { name := name, id := t.id } := by
  intro l i t name h
  have hlt : i < l.length := by
    by_contra hge
    rw [List.get?_eq_none.2 (by omega)] at h
    simp at h
  simp [List.getElem?_set, hlt]

theorem staleModel_reachable : Reachable plainWidgets staleModel :=
  reachable_run (initialModel plainWidgets) Reachable.init
    [Msg.key "e", Msg.key "enter"] staleModel rfl

/-! ## Writes through the map -/

theorem storeList_self (m : model w) (md : mode) (tl : TaskList)
    (h : taskListPerMode m md = some tl) : storeList m md tl = m := by
  cases md <;> simp only [taskListPerMode, Option.some.injEq] at h
  · subst h
    rfl
  · subst h
    rfl
  · simp at h
  · simp at h

theorem storeList_frame (m : model w) (md : mode) (tl x : TaskList)
    (h : taskListPerMode m md = some tl) :
    taskListPerMode (storeList m md x) md = some x ∧
    (∀ md1, md1 ≠ md → taskListPerMode (storeList m md x) md1 = taskListPerMode m md1) ∧
    (storeList m md x).taskID = m.taskID ∧
    (storeList m md x).currentMode = m.currentMode ∧
    (storeList m md x).additionTextInput = m.additionTextInput ∧
    (storeList m md x).quitting = m.quitting := by
  cases md
  · refine ⟨rfl, ?_, rfl, rfl, rfl, rfl⟩
    intro md1 hne
    cases md1 <;> simp [taskListPerMode, storeList] at hne ⊢
  · refine ⟨rfl, ?_, rfl, rfl, rfl, rfl⟩
    intro md1 hne
    cases md1 <;> simp [taskListPerMode, storeList] at hne ⊢
  · simp [taskListPerMode] at h
  · simp [taskListPerMode] at h

theorem browsing_of_lookup (m : model w) (tl : TaskList)
    (h : taskListPerMode m m.currentMode = some tl) :
    m.currentMode ≠ mode.additionMode ∧ m.currentMode ≠ mode.editingMode := by
  constructor <;> intro hm <;> rw [hm] at h <;> simp [taskListPerMode] at h

theorem up_clamp (tl : TaskList) (hc : CursorOK tl) :
    (if tl.cursor > 0 then tl.cursor - 1 else tl.cursor) =
      (if tl.list = [] then tl.cursor
        else max 0 (min (tl.cursor - 1) ((tl.list.length : Int) - 1))) := by
  rcases hc with ⟨h0, h1⟩ | ⟨he, h0⟩
  · have hne : tl.list ≠ [] := by
      intro he
      rw [he] at h1
      simp at h1
      omega
    rw [if_neg hne]
    split_ifs <;> omega
  · rw [if_pos he, h0]
    simp

theorem down_clamp (tl : TaskList) (hc : CursorOK tl) :
    (if tl.cursor < (tl.list.length : Int) - 1 then tl.cursor + 1 else tl.cursor) =
      (if tl.list = [] then tl.cursor
        else max 0 (min (tl.cursor + 1) ((tl.list.length : Int) - 1))) := by
  rcases hc with ⟨h0, h1⟩ | ⟨he, h0⟩
  · have hne : tl.list ≠ [] := by
      intro he
      rw [he] at h1
      simp at h1
      omega
    rw [if_neg hne]
    split_ifs <;> omega
  · rw [if_pos he, h0, he]
    simp

/-! ## Modes -/

theorem editing_only_by_e (m m1 : model w) (msg : Msg) (c : Cmd)
    (ha : m.currentMode ≠ mode.additionMode) (he : m.currentMode ≠ mode.editingMode)
    (h : Update w m msg = some (m1, c)) (h1 : m1.currentMode = mode.editingMode) :
    m.currentMode = mode.normalMode ∧ m.normalList.list ≠ [] ∧ msg = Msg.key "e" := by
  have hkeep : m1.currentMode = m.currentMode → False := fun hk => he (hk ▸ h1)
  cases msg with
  | err e =>
    rw [Update_err m e ha he] at h
    simp only [Option.some.injEq, Prod.mk.injEq] at h
    obtain ⟨rfl, _⟩ := h
    exact absurd h1 he
  | other n =>
    rw [Update_other m n ha he] at h
    simp only [Option.some.injEq, Prod.mk.injEq] at h
    obtain ⟨rfl, _⟩ := h
    exact absurd h1 he
  | key k =>
    by_cases hq : k ∈ quitKeys
    · rw [Update_quit m k ha he hq] at h
      simp only [Option.some.injEq, Prod.mk.injEq] at h
      obtain ⟨rfl, _⟩ := h
      exact absurd h1 he
    by_cases hs : k = "s"
    · subst hs
      rcases lookup_browsing m ha he with ⟨hm, _⟩ | ⟨hm, _⟩
      · rw [Update_toggle_normal m hm] at h
        simp only [Option.some.injEq, Prod.mk.injEq] at h
        obtain ⟨rfl, _⟩ := h
        simp at h1
      · rw [Update_toggle_completed m hm] at h
        simp only [Option.some.injEq, Prod.mk.injEq] at h
        obtain ⟨rfl, _⟩ := h
        simp at h1
    by_cases hu : k = keyUp ∨ k = keyLeft
    · have hl : ∃ tl, taskListPerMode m m.currentMode = some tl := by
        rcases lookup_browsing m ha he with ⟨_, hl⟩ | ⟨_, hl⟩ <;> exact ⟨_, hl⟩
      obtain ⟨tl, hl⟩ := hl
      rw [Update_up m k tl ha he hu hl] at h
      simp only [Option.some.injEq, Prod.mk.injEq] at h
      obtain ⟨rfl, _⟩ := h
      exfalso
      apply hkeep
      split_ifs
      · exact (storeList_frame m _ tl _ hl).2.2.2.1
      · rfl
    by_cases hd : k = keyDown ∨ k = keyRight
    · have hl : ∃ tl, taskListPerMode m m.currentMode = some tl := by
        rcases lookup_browsing m ha he with ⟨_, hl⟩ | ⟨_, hl⟩ <;> exact ⟨_, hl⟩
      obtain ⟨tl, hl⟩ := hl
      rw [Update_down m k tl ha he hd hl] at h
      simp only [Option.some.injEq, Prod.mk.injEq] at h
      obtain ⟨rfl, _⟩ := h
      exfalso
      apply hkeep
      split_ifs
      · exact (storeList_frame m _ tl _ hl).2.2.2.1
      · rfl
    by_cases hn : k = keyEnter
    · subst hn
      rcases lookup_browsing m ha he with ⟨hm, _⟩ | ⟨hm, _⟩
      · rw [Update_enter_normal m hm] at h
        cases hr : removeTaskFromCurrentList m mode.normalMode with
        | none => simp [hr] at h
        | some r =>
          obtain ⟨m2, t⟩ := r
          have hf := (remove_frame m m2 _ t hr).1
          rw [hr] at h
          dsimp only at h
          exfalso
          apply hkeep
          split_ifs at h
          · simp only [Option.some.injEq, Prod.mk.injEq] at h
            obtain ⟨rfl, _⟩ := h
            exact hf
          · simp only [Option.some.injEq, Prod.mk.injEq] at h
            obtain ⟨rfl, _⟩ := h
            exact hf
      · rw [Update_enter_completed m hm] at h
        simp only [Option.some.injEq, Prod.mk.injEq] at h
        obtain ⟨rfl, _⟩ := h
        exact absurd h1 he
    by_cases hdel : k = "d"
    · subst hdel
      rw [Update_d m ha he] at h
      cases hr : removeTaskFromCurrentList m m.currentMode with
      | none => simp [hr] at h
      | some r =>
        obtain ⟨m2, t⟩ := r
        have hf := (remove_frame m m2 _ t hr).1
        rw [hr] at h
        simp only [Option.some.injEq, Prod.mk.injEq] at h
        obtain ⟨rfl, _⟩ := h
        exact absurd (hf ▸ h1) he
    by_cases hadd : k = "a"
    · subst hadd
      rw [Update_a m ha he] at h
      simp only [Option.some.injEq, Prod.mk.injEq] at h
      obtain ⟨rfl, _⟩ := h
      simp at h1
    by_cases hed : k = "e"
    · subst hed
      rcases lookup_browsing m ha he with ⟨hm, _⟩ | ⟨hm, _⟩
      · refine ⟨hm, ?_, rfl⟩
        intro hnil
        rw [Update_e_normal m hm, if_pos (by simp [hnil])] at h
        simp only [Option.some.injEq, Prod.mk.injEq] at h
        obtain ⟨rfl, _⟩ := h
        exact absurd h1 he
      · rw [Update_e_completed m hm] at h
        simp only [Option.some.injEq, Prod.mk.injEq] at h
        obtain ⟨rfl, _⟩ := h
        exact absurd h1 he
    have hu1 : k ≠ keyUp := fun h => hu (Or.inl h)
    have hu2 : k ≠ keyLeft := fun h => hu (Or.inr h)
    have hd1 : k ≠ keyDown := fun h => hd (Or.inl h)
    have hd2 : k ≠ keyRight := fun h => hd (Or.inr h)
    rw [Update_unbound m k ha he hq hs hu1 hu2 hd1 hd2 hn hdel hadd hed] at h
    simp only [Option.some.injEq, Prod.mk.injEq] at h
    obtain ⟨rfl, _⟩ := h
    exact absurd h1 he

theorem addition_never_to_editing (m m1 : model w) (msg : Msg) (c : Cmd)
    (ha : m.currentMode = mode.additionMode) (h : Update w m msg = some (m1, c)) :
    m1.currentMode ≠ mode.editingMode := by
  by_cases hk : msg = Msg.key keyEnter
  · subst hk
    by_cases hb : trimSpace (w.value (w.inputUpdate m.additionTextInput (Msg.key keyEnter))) = ""
    · rw [Update_addition_blank m ha hb] at h
      simp only [Option.some.injEq, Prod.mk.injEq] at h
      obtain ⟨rfl, _⟩ := h
      simp
    · rw [Update_addition_insert m ha hb] at h
      simp only [Option.some.injEq, Prod.mk.injEq] at h
      obtain ⟨rfl, _⟩ := h
      simp
  · rw [Update_addition_other m msg ha hk] at h
    simp only [Option.some.injEq, Prod.mk.injEq] at h
    obtain ⟨rfl, _⟩ := h
    simp [ha]

theorem editing_enter_mode (m m1 : model w) (c : Cmd)
    (he : m.currentMode = mode.editingMode)
    (h : Update w m (Msg.key keyEnter) = some (m1, c)) :
    m1.currentMode = mode.normalMode := by
  by_cases hb : w.value (w.inputUpdate m.additionTextInput (Msg.key keyEnter)) = ""
  · rw [Update_editing_empty m he hb] at h
    cases hr : removeTaskFromCurrentList
        { m with additionTextInput := w.inputUpdate m.additionTextInput (Msg.key keyEnter) }
        mode.normalMode with
    | none => simp [hr] at h
    | some r =>
      obtain ⟨m2, t⟩ := r
      rw [hr] at h
      simp only [Option.some.injEq, Prod.mk.injEq] at h
      obtain ⟨rfl, _⟩ := h
      rfl
  · rw [Update_editing_rename m he hb] at h
    cases hr : setName m.normalList.list m.normalList.cursor
        (w.value (w.inputUpdate m.additionTextInput (Msg.key keyEnter))) with
    | none => simp [hr] at h
    | some l =>
      rw [hr] at h
      simp only [Option.some.injEq, Prod.mk.injEq] at h
      obtain ⟨rfl, _⟩ := h
      rfl

theorem editing_enter_total (m : model w) (he : m.currentMode = mode.editingMode)
    (h0 : 0 ≤ m.normalList.cursor)
    (h1 : m.normalList.cursor < (m.normalList.list.length : Int)) :
    ∃ m1, Update w m (Msg.key keyEnter) = some (m1, Cmd.nil) := by
  by_cases hb : w.value (w.inputUpdate m.additionTextInput (Msg.key keyEnter)) = ""
  · obtain ⟨t1, _, hr⟩ := remove_of_inRange
      { m with additionTextInput := w.inputUpdate m.additionTextInput (Msg.key keyEnter) }
      mode.normalMode m.normalList rfl h0 h1
    rw [Update_editing_empty m he hb, hr]
    exact ⟨_, rfl⟩
  · obtain ⟨t, ht, _⟩ := index_of_inRange _ _ h0 h1
    rw [Update_editing_rename m he hb]
    simp only [setName, ht]
    exact ⟨_, rfl⟩

/-! ## Frame of the browsing keys -/

theorem remove_other (m m1 : model w) (md : mode) (t : Task)
    (h : removeTaskFromCurrentList m md = some (m1, t)) :
    ∀ md1, md1 ≠ md → taskListPerMode m1 md1 = taskListPerMode m md1 := by
  unfold removeTaskFromCurrentList at h
  cases md <;> simp only [taskListPerMode] at h
  · by_cases hlen : m.normalList.list.length = 0
    · simp only [hlen, if_true, Option.some.injEq, Prod.mk.injEq] at h
      obtain ⟨rfl, _⟩ := h
      intro md1 _
      rfl
    · cases hidx : index m.normalList.list m.normalList.cursor with
      | none => simp [hlen, hidx] at h
      | some t1 =>
        simp only [hlen, if_false, hidx, Option.some.injEq, Prod.mk.injEq] at h
        obtain ⟨rfl, _⟩ := h
        intro md1 hne
        cases md1 <;> simp [taskListPerMode, storeList] at hne ⊢
  · by_cases hlen : m.completedList.list.length = 0
    · simp only [hlen, if_true, Option.some.injEq, Prod.mk.injEq] at h
      obtain ⟨rfl, _⟩ := h
      intro md1 _
      rfl
    · cases hidx : index m.completedList.list m.completedList.cursor with
      | none => simp [hlen, hidx] at h
      | some t1 =>
        simp only [hlen, if_false, hidx, Option.some.injEq, Prod.mk.injEq] at h
        obtain ⟨rfl, _⟩ := h
        intro md1 hne
        cases md1 <;> simp [taskListPerMode, storeList] at hne ⊢
  · simp at h
  · simp at h

theorem browsing_key_frame (m m1 : model w) (k : String) (c : Cmd)
    (ha : m.currentMode ≠ mode.additionMode) (he : m.currentMode ≠ mode.editingMode)
    (hne : ¬ (m.currentMode = mode.normalMode ∧ k = keyEnter))
    (h : Update w m (Msg.key k) = some (m1, c)) :
    (∀ md1, md1 ≠ m.currentMode → taskListPerMode m1 md1 = taskListPerMode m md1) ∧
    m1.taskID = m.taskID := by
  have hsame : (∀ md1, md1 ≠ m.currentMode → taskListPerMode m md1 = taskListPerMode m md1) ∧
      m.taskID = m.taskID := ⟨fun _ _ => rfl, rfl⟩
  by_cases hq : k ∈ quitKeys
  · rw [Update_quit m k ha he hq] at h
    simp only [Option.some.injEq, Prod.mk.injEq] at h
    obtain ⟨rfl, _⟩ := h
    exact ⟨fun _ _ => rfl, rfl⟩
  by_cases hs : k = "s"
  · subst hs
    rcases lookup_browsing m ha he with ⟨hm, _⟩ | ⟨hm, _⟩
    · rw [Update_toggle_normal m hm] at h
      simp only [Option.some.injEq, Prod.mk.injEq] at h
      obtain ⟨rfl, _⟩ := h
      exact ⟨fun _ _ => rfl, rfl⟩
    · rw [Update_toggle_completed m hm] at h
      simp only [Option.some.injEq, Prod.mk.injEq] at h
      obtain ⟨rfl, _⟩ := h
      exact ⟨fun _ _ => rfl, rfl⟩
  by_cases hu : k = keyUp ∨ k = keyLeft
  · have hl : ∃ tl, taskListPerMode m m.currentMode = some tl := by
      rcases lookup_browsing m ha he with ⟨_, hl⟩ | ⟨_, hl⟩ <;> exact ⟨_, hl⟩
    obtain ⟨tl, hl⟩ := hl
    rw [Update_up m k tl ha he hu hl] at h
    simp only [Option.some.injEq, Prod.mk.injEq] at h
    obtain ⟨rfl, _⟩ := h
    split_ifs
    · exact ⟨(storeList_frame m _ tl _ hl).2.1, (storeList_frame m _ tl _ hl).2.2.1⟩
    · exact hsame
  by_cases hd : k = keyDown ∨ k = keyRight
  · have hl : ∃ tl, taskListPerMode m m.currentMode = some tl := by
      rcases lookup_browsing m ha he with ⟨_, hl⟩ | ⟨_, hl⟩ <;> exact ⟨_, hl⟩
    obtain ⟨tl, hl⟩ := hl
    rw [Update_down m k tl ha he hd hl] at h
    simp only [Option.some.injEq, Prod.mk.injEq] at h
    obtain ⟨rfl, _⟩ := h
    split_ifs
    · exact ⟨(storeList_frame m _ tl _ hl).2.1, (storeList_frame m _ tl _ hl).2.2.1⟩
    · exact hsame
  by_cases hn : k = keyEnter
  · subst hn
    rcases lookup_browsing m ha he with ⟨hm, _⟩ | ⟨hm, _⟩
    · exact absurd ⟨hm, rfl⟩ hne
    · rw [Update_enter_completed m hm] at h
      simp only [Option.some.injEq, Prod.mk.injEq] at h
      obtain ⟨rfl, _⟩ := h
      exact hsame
  by_cases hdel : k = "d"
  · subst hdel
    rw [Update_d m ha he] at h
    cases hr : removeTaskFromCurrentList m m.currentMode with
    | none => simp [hr] at h
    | some r =>
      obtain ⟨m2, t⟩ := r
      rw [hr] at h
      simp only [Option.some.injEq, Prod.mk.injEq] at h
      obtain ⟨rfl, _⟩ := h
      exact ⟨remove_other m m2 _ t hr, (remove_frame m m2 _ t hr).2.1⟩
  by_cases hadd : k = "a"
  · subst hadd
    rw [Update_a m ha he] at h
    simp only [Option.some.injEq, Prod.mk.injEq] at h
    obtain ⟨rfl, _⟩ := h
    exact ⟨fun _ _ => rfl, rfl⟩
  by_cases hed : k = "e"
  · subst hed
    rcases lookup_browsing m ha he with ⟨hm, _⟩ | ⟨hm, _⟩
    · rw [Update_e_normal m hm] at h
      split_ifs at h
      · simp only [Option.some.injEq, Prod.mk.injEq] at h
        obtain ⟨rfl, _⟩ := h
        exact hsame
      · cases hidx : index m.normalList.list m.normalList.cursor with
        | none => simp [hidx] at h
        | some t =>
          rw [hidx] at h
          simp only [Option.some.injEq, Prod.mk.injEq] at h
          obtain ⟨rfl, _⟩ := h
          exact ⟨fun _ _ => rfl, rfl⟩
    · rw [Update_e_completed m hm] at h
      simp only [Option.some.injEq, Prod.mk.injEq] at h
      obtain ⟨rfl, _⟩ := h
      exact hsame
  have hu1 : k ≠ keyUp := fun h => hu (Or.inl h)
  have hu2 : k ≠ keyLeft := fun h => hu (Or.inr h)
  have hd1 : k ≠ keyDown := fun h => hd (Or.inl h)
  have hd2 : k ≠ keyRight := fun h => hd (Or.inr h)
  rw [Update_unbound m k ha he hq hs hu1 hu2 hd1 hd2 hn hdel hadd hed] at h
  simp only [Option.some.injEq, Prod.mk.injEq] at h
  obtain ⟨rfl, _⟩ := h
  exact hsame

/-! ## Removing the last task -/

theorem eraseIdx_append_last (L : List Task) (x : Task) :
    (L ++ [x]).eraseIdx L.length = L := by
  induction L with
  | nil => rfl
  | cons a L ih => simp [ih]

theorem index_append_last (L : List Task) (x : Task) :
    index (L ++ [x]) (L.length : Int) = some x := by
  have hneg : ¬ ((L.length : Int) < 0) := by omega
  simp [index, hneg]

/-! ## Which message does what -/

theorem index_mem (l : List Task) (c : Int) (t : Task) (h : index l c = some t) : t ∈ l :=
  List.get?_mem (index_get l c t h)

theorem Update_cause (m : model w) (msg : Msg) (hI : Inv m) (hNm : NamesOK m) :
    ∃ m1 c, Update w m msg = some (m1, c) ∧ StepCause w m msg m1 := by
  obtain ⟨hN, hC, hE⟩ := hI
  have hsame : StepCause w m msg m := StepCause.same rfl rfl
  by_cases ha : m.currentMode = mode.additionMode
  · by_cases hk : msg = Msg.key keyEnter
    · subst hk
      by_cases hb : trimSpace (w.value (w.inputUpdate m.additionTextInput (Msg.key keyEnter))) = ""
      · exact ⟨_, _, Update_addition_blank m ha hb, StepCause.same rfl rfl⟩
      · exact ⟨_, _, Update_addition_insert m ha hb, StepCause.added ha rfl hb rfl rfl⟩
    · exact ⟨_, _, Update_addition_other m msg ha hk, StepCause.same rfl rfl⟩
  by_cases he : m.currentMode = mode.editingMode
  · by_cases hk : msg = Msg.key keyEnter
    · subst hk
      obtain ⟨h0, h1⟩ := cursorOK_nonempty _ hN (hE he)
      obtain ⟨t, ht, _⟩ := index_of_inRange _ _ h0 h1
      by_cases hb : w.value (w.inputUpdate m.additionTextInput (Msg.key keyEnter)) = ""
      · obtain ⟨t1, _, hr⟩ := remove_of_inRange
          { m with additionTextInput := w.inputUpdate m.additionTextInput (Msg.key keyEnter) }
          mode.normalMode m.normalList rfl h0 h1
        rw [Update_editing_empty m he hb, hr]
        exact ⟨_, _, rfl, StepCause.deletedByEdit t he rfl hb ht rfl rfl⟩
      · rw [Update_editing_rename m he hb]
        simp only [setName, ht]
        exact ⟨_, _, rfl, StepCause.renamed t he rfl hb ht rfl rfl⟩
    · exact ⟨_, _, Update_editing_other m msg he hk, StepCause.same rfl rfl⟩
  cases msg with
  | err e => exact ⟨_, _, Update_err m e ha he, StepCause.same rfl rfl⟩
  | other n => exact ⟨_, _, Update_other m n ha he, StepCause.same rfl rfl⟩
  | key k =>
    by_cases hq : k ∈ quitKeys
    · exact ⟨_, _, Update_quit m k ha he hq, StepCause.same rfl rfl⟩
    by_cases hs : k = "s"
    · subst hs
      rcases lookup_browsing m ha he with ⟨hm, _⟩ | ⟨hm, _⟩
      · exact ⟨_, _, Update_toggle_normal m hm, StepCause.same rfl rfl⟩
      · exact ⟨_, _, Update_toggle_completed m hm, StepCause.same rfl rfl⟩
    by_cases hu : k = keyUp ∨ k = keyLeft
    · rcases lookup_browsing m ha he with ⟨hm, hl⟩ | ⟨hm, hl⟩
      · refine ⟨_, _, Update_up m k _ ha he hu hl, ?_⟩
        split_ifs with hpos
        · rw [hm]
          exact StepCause.same rfl rfl
        · exact hsame
      · refine ⟨_, _, Update_up m k _ ha he hu hl, ?_⟩
        split_ifs with hpos
        · rw [hm]
          exact StepCause.same rfl rfl
        · exact hsame
    by_cases hd : k = keyDown ∨ k = keyRight
    · rcases lookup_browsing m ha he with ⟨hm, hl⟩ | ⟨hm, hl⟩
      · refine ⟨_, _, Update_down m k _ ha he hd hl, ?_⟩
        split_ifs with hpos
        · rw [hm]
          exact StepCause.same rfl rfl
        · exact hsame
      · refine ⟨_, _, Update_down m k _ ha he hd hl, ?_⟩
        split_ifs with hpos
        · rw [hm]
          exact StepCause.same rfl rfl
        · exact hsame
    by_cases hn : k = keyEnter
    · subst hn
      rcases lookup_browsing m ha he with ⟨hm, _⟩ | ⟨hm, _⟩
      · rcases remove_cases m mode.normalMode m.normalList rfl hN with
          ⟨_, hr⟩ | ⟨_, h0, h1, t, ht, hr⟩
        · refine ⟨m, Cmd.nil, ?_, hsame⟩
          rw [Update_enter_normal m hm, hr]
          simp [emptyTask]
        · have hname : t.name ≠ "" :=
            hNm t (List.mem_append.2 (Or.inl (index_mem _ _ t ht)))
          rw [Update_enter_normal m hm, hr]
          dsimp only
          rw [if_pos hname]
          exact ⟨_, _, rfl, StepCause.moved t hm rfl ht rfl rfl⟩
      · exact ⟨_, _, Update_enter_completed m hm, hsame⟩
    by_cases hdel : k = "d"
    · subst hdel
      rcases lookup_browsing m ha he with ⟨hm, hl⟩ | ⟨hm, hl⟩
      · rcases remove_cases m m.currentMode m.normalList hl hN with
          ⟨_, hr⟩ | ⟨_, h0, h1, t, ht, hr⟩
        · refine ⟨m, Cmd.nil, ?_, hsame⟩
          rw [Update_d m ha he, hr]
        · rw [Update_d m ha he, hr]
          refine ⟨_, _, rfl, ?_⟩
          rw [hm]
          exact StepCause.deletedPendingByKey t hm rfl ht rfl rfl
      · rcases remove_cases m m.currentMode m.completedList hl hC with
          ⟨_, hr⟩ | ⟨_, h0, h1, t, ht, hr⟩
        · refine ⟨m, Cmd.nil, ?_, hsame⟩
          rw [Update_d m ha he, hr]
        · rw [Update_d m ha he, hr]
          refine ⟨_, _, rfl, ?_⟩
          rw [hm]
          exact StepCause.deletedCompletedByKey t hm rfl ht rfl rfl
    by_cases hadd : k = "a"
    · subst hadd
      exact ⟨_, _, Update_a m ha he, StepCause.same rfl rfl⟩
    by_cases hed : k = "e"
    · subst hed
      rcases lookup_browsing m ha he with ⟨hm, _⟩ | ⟨hm, _⟩
      · by_cases hlen : m.normalList.list.length = 0
        · refine ⟨m, Cmd.nil, ?_, hsame⟩
          rw [Update_e_normal m hm, if_pos hlen]
        · have hnil : m.normalList.list ≠ [] := by
            intro h
            rw [h] at hlen
            simp at hlen
          obtain ⟨h0, h1⟩ := cursorOK_nonempty _ hN hnil
          obtain ⟨t, ht, _⟩ := index_of_inRange _ _ h0 h1
          rw [Update_e_normal m hm, if_neg hlen, ht]
          exact ⟨_, _, rfl, StepCause.same rfl rfl⟩
      · exact ⟨_, _, Update_e_completed m hm, hsame⟩
    have hu1 : k ≠ keyUp := fun h => hu (Or.inl h)
    have hu2 : k ≠ keyLeft := fun h => hu (Or.inr h)
    have hd1 : k ≠ keyDown := fun h => hd (Or.inl h)
    have hd2 : k ≠ keyRight := fun h => hd (Or.inr h)
    exact ⟨_, _, Update_unbound m k ha he hq hs hu1 hu2 hd1 hd2 hn hdel hadd hed, hsame⟩

/-! ## Names -/

theorem cause_names (m m1 : model w) (msg : Msg) (hc : StepCause w m msg m1)
    (h : NamesOK m) : NamesOK m1 := by
  have hpend : ∀ t ∈ m.normalList.list, t.name ≠ "" :=
    fun t ht => h t (List.mem_append.2 (Or.inl ht))
  have hcomp : ∀ t ∈ m.completedList.list, t.name ≠ "" :=
    fun t ht => h t (List.mem_append.2 (Or.inr ht))
  intro x hx
  rcases List.mem_append.1 hx with hx | hx
  · cases hc with
    | same hn _ => exact hpend x (hn ▸ hx)
    | moved t _ _ _ hn _ =>
      rw [hn] at hx
      exact hpend x ((List.eraseIdx_sublist _ _).subset hx)
    | added _ _ hb hn _ =>
      rw [hn] at hx
      rcases List.mem_append.1 hx with hx | hx
      · exact hpend x hx
      · rw [List.mem_singleton] at hx
        rw [hx]
        exact ne_empty_of_not_blank _ hb
    | deletedPendingByKey t _ _ _ hn _ =>
      rw [hn] at hx
      exact hpend x ((List.eraseIdx_sublist _ _).subset hx)
    | deletedCompletedByKey t _ _ _ hn _ => exact hpend x (hn ▸ hx)
    | deletedByEdit t _ _ _ _ hn _ =>
      rw [hn] at hx
      exact hpend x ((List.eraseIdx_sublist _ _).subset hx)
    | renamed t _ _ hv _ hn _ =>
      rw [hn] at hx
      rcases List.mem_or_eq_of_mem_set hx with hx | hx
      · exact hpend x hx
      · rw [hx]
        exact hv
  · cases hc with
    | same _ hc1 => exact hcomp x (hc1 ▸ hx)
    | moved t _ _ hidx _ hc1 =>
      rw [hc1] at hx
      rcases List.mem_append.1 hx with hx | hx
      · exact hcomp x hx
      · rw [List.mem_singleton] at hx
        rw [hx]
        exact hpend t (index_mem _ _ t hidx)
    | added _ _ _ _ hc1 => exact hcomp x (hc1 ▸ hx)
    | deletedPendingByKey t _ _ _ _ hc1 => exact hcomp x (hc1 ▸ hx)
    | deletedCompletedByKey t _ _ _ _ hc1 =>
      rw [hc1] at hx
      exact hcomp x ((List.eraseIdx_sublist _ _).subset hx)
    | deletedByEdit t _ _ _ _ _ hc1 => exact hcomp x (hc1 ▸ hx)
    | renamed t _ _ _ _ _ hc1 => exact hcomp x (hc1 ▸ hx)

theorem names_init (w : Widgets) : NamesOK (initialModel w) := by
  intro t ht
  simp [initialModel] at ht
  rcases ht with h | h | h | h | h | h <;> rw [h] <;> decide

theorem names_of_reachable (m : model w) (h : Reachable w m) : NamesOK m := by
  induction h with
  | init => exact names_init w
  | @step m m1 c msg hreach hstep ih =>
    obtain ⟨m2, c2, hu, hcause⟩ := Update_cause m msg (inv_of_reachable m hreach) ih
    rw [hu] at hstep
    simp only [Option.some.injEq, Prod.mk.injEq] at hstep
    obtain ⟨rfl, _⟩ := hstep
    exact cause_names m m2 msg hcause ih

theorem set_same :
    ∀ (l : List Task) (i : Nat) (t : Task), l.get? i = some t →
      l.set i { name := t.name, id := t.id } = l
  | [], _, _, h => by simp at h
  | a :: l, 0, t, h => by
    simp at h
    subst h
    rfl
  | a :: l, i + 1, t, h => by
    simp at h
    have ih := set_same l i t (by simpa using h)
    simp only [List.set_cons_succ, ih]

theorem perm_set_eraseIdx :
    ∀ (l : List Task) (i : Nat) (t x : Task), l.get? i = some t →
      List.Perm (l.set i x) (x :: l.eraseIdx i)
  | [], _, _, _, h => by simp at h
  | a :: l, 0, t, x, _ => by simp
  | a :: l, i + 1, t, x, h => by
    simp at h
    have ih := perm_set_eraseIdx l i t x (by simpa using h)
    simp only [List.set_cons_succ, List.eraseIdx_cons_succ]
    exact (List.Perm.cons a ih).trans (List.Perm.swap x a _)

/-! ## The multiset of tasks -/

theorem coe_moved (n c : List Task) (i : Nat) (t : Task) (h : n.get? i = some t) :
    (↑(n.eraseIdx i ++ (c ++ [t])) : Multiset Task) = ↑(n ++ c) := by
  rw [Multiset.coe_eq_coe]
  have h1 := perm_eraseIdx n i t h
  have h2 : List.Perm (n.eraseIdx i ++ (c ++ [t])) (t :: n.eraseIdx i ++ c) := by
    rw [← List.append_assoc]
    exact List.perm_append_singleton _ _
  exact h2.trans (List.Perm.append_right _ h1.symm)

theorem coe_added (n c : List Task) (x : Task) :
    (↑((n ++ [x]) ++ c) : Multiset Task) = x ::ₘ (↑(n ++ c) : Multiset Task) := by
  rw [Multiset.cons_coe, Multiset.coe_eq_coe, List.append_assoc, List.singleton_append]
  exact List.perm_middle

theorem coe_erase_left (n c : List Task) (i : Nat) (t : Task) (h : n.get? i = some t) :
    (↑(n ++ c) : Multiset Task) = t ::ₘ (↑(n.eraseIdx i ++ c) : Multiset Task) := by
  rw [Multiset.cons_coe, Multiset.coe_eq_coe]
  exact List.Perm.append_right c (perm_eraseIdx n i t h)

theorem coe_erase_right (n c : List Task) (i : Nat) (t : Task) (h : c.get? i = some t) :
    (↑(n ++ c) : Multiset Task) = t ::ₘ (↑(n ++ c.eraseIdx i) : Multiset Task) := by
  rw [Multiset.cons_coe, Multiset.coe_eq_coe]
  exact (List.Perm.append_left n (perm_eraseIdx c i t h)).trans List.perm_middle

theorem coe_set_left (n c : List Task) (i : Nat) (t x : Task) (h : n.get? i = some t) :
    (↑(n.set i x ++ c) : Multiset Task) = x ::ₘ (↑(n.eraseIdx i ++ c) : Multiset Task) := by
  rw [Multiset.cons_coe, Multiset.coe_eq_coe]
  exact List.Perm.append_right c (perm_set_eraseIdx n i t x h)

theorem cause_tasks (m m1 : model w) (msg : Msg) (hc : StepCause w m msg m1) :
    tasks m1 = tasks m ∨
    (m.currentMode = mode.additionMode ∧ msg = Msg.key keyEnter ∧
      trimSpace (readText w m msg) ≠ "" ∧
      tasks m1 = { name := readText w m msg, id := m.taskID } ::ₘ tasks m) ∨
    (∃ t, ((msg = Msg.key "d" ∧
          (m.currentMode = mode.normalMode ∨ m.currentMode = mode.completedMode)) ∨
        (m.currentMode = mode.editingMode ∧ msg = Msg.key keyEnter ∧
          readText w m msg = "")) ∧
      tasks m = t ::ₘ tasks m1) ∨
    (∃ t rest, m.currentMode = mode.editingMode ∧ msg = Msg.key keyEnter ∧
      readText w m msg ≠ "" ∧ tasks m = t ::ₘ rest ∧
      tasks m1 = { name := readText w m msg, id := t.id } ::ₘ rest) := by
  cases hc with
  | same hn hc1 =>
    left
    simp only [tasks, hn, hc1]
  | moved t _ _ hidx hn hc1 =>
    left
    simp only [tasks, hn, hc1]
    exact coe_moved _ _ _ t (index_get _ _ t hidx)
  | added hm hmsg hb hn hc1 =>
    right
    left
    refine ⟨hm, hmsg, hb, ?_⟩
    simp only [tasks, hn, hc1]
    exact coe_added _ _ _
  | deletedPendingByKey t hm hmsg hidx hn hc1 =>
    right
    right
    left
    refine ⟨t, Or.inl ⟨hmsg, Or.inl hm⟩, ?_⟩
    simp only [tasks, hn, hc1]
    exact coe_erase_left _ _ _ t (index_get _ _ t hidx)
  | deletedCompletedByKey t hm hmsg hidx hn hc1 =>
    right
    right
    left
    refine ⟨t, Or.inl ⟨hmsg, Or.inr hm⟩, ?_⟩
    simp only [tasks, hn, hc1]
    exact coe_erase_right _ _ _ t (index_get _ _ t hidx)
  | deletedByEdit t hm hmsg hv hidx hn hc1 =>
    right
    right
    left
    refine ⟨t, Or.inr ⟨hm, hmsg, hv⟩, ?_⟩
    simp only [tasks, hn, hc1]
    exact coe_erase_left _ _ _ t (index_get _ _ t hidx)
  | renamed t hm hmsg hv hidx hn hc1 =>
    right
    right
    right
    refine ⟨t, ↑(m.normalList.list.eraseIdx m.normalList.cursor.toNat ++
      m.completedList.list), hm, hmsg, hv, ?_, ?_⟩
    · simp only [tasks]
      exact coe_erase_left _ _ _ t (index_get _ _ t hidx)
    · simp only [tasks, hn, hc1]
      exact coe_set_left _ _ _ t _ (index_get _ _ t hidx)

/-! ## The claims -/

/-- C1 (cursor invariant): in every state reachable from `initialModel()` by messages
handled by `Update`, the pending list and the completed list each have their cursor
within the list, or are empty with the cursor at `0`. -/
theorem cursor_invariant (w : Widgets) (m : model w) (h : Reachable w m) :
    ((0 ≤ m.normalList.cursor ∧ m.normalList.cursor < (m.normalList.list.length : Int)) ∨
      (m.normalList.list = [] ∧ m.normalList.cursor = 0)) ∧
    ((0 ≤ m.completedList.cursor ∧
        m.completedList.cursor < (m.completedList.list.length : Int)) ∨
      (m.completedList.list = [] ∧ m.completedList.cursor = 0)) :=
  ⟨(inv_of_reachable m h).1, (inv_of_reachable m h).2.1⟩

/-- C1 on a concrete run: after four `d` the pending list is empty with cursor `0`,
the completed list still has its cursor on the second of two tasks. -/
theorem cursor_invariant_witness :
    Reachable plainWidgets emptiedModel ∧
    ((0 ≤ emptiedModel.normalList.cursor ∧
        emptiedModel.normalList.cursor < (emptiedModel.normalList.list.length : Int)) ∨
      (emptiedModel.normalList.list = [] ∧ emptiedModel.normalList.cursor = 0)) ∧
    ((0 ≤ emptiedModel.completedList.cursor ∧
        emptiedModel.completedList.cursor < (emptiedModel.completedList.list.length : Int)) ∨
      (emptiedModel.completedList.list = [] ∧ emptiedModel.completedList.cursor = 0)) :=
  ⟨emptiedModel_reachable, cursor_invariant plainWidgets emptiedModel emptiedModel_reachable⟩

/-- C2 (ids): in every state reachable from `initialModel()`, taken with the log of
the ids issued so far, the ids in the two lists are pairwise distinct and below the
counter `taskID`; every id ever issued is below the counter and no id was issued
twice; and a call of `Update` never lowers the counter, while an id it puts into the
lists that was not there before is the old counter, greater than every id issued
before it, deleted ones included. -/
theorem ids_unique_and_monotone (w : Widgets) (log : List Int) (m : model w)
    (h : Issued w log m) :
    (ids m).Nodup ∧ (∀ i ∈ ids m, i < m.taskID) ∧
    log.Nodup ∧ (∀ i ∈ log, i < m.taskID) ∧ (∀ i ∈ ids m, i ∈ log) ∧
    ∀ (msg : Msg) (m1 : model w) (c : Cmd), Update w m msg = some (m1, c) →
      m.taskID ≤ m1.taskID ∧
      ∀ i ∈ ids m1, i ∉ ids m → i = m.taskID ∧ ∀ j ∈ log, j < i := by
  obtain ⟨hI, hnd, hlt, hlog, hloglt, hsub⟩ := issued_inv log m h
  refine ⟨hnd, hlt, hlog, hloglt, hsub, ?_⟩
  intro msg m1 c hu
  obtain ⟨m2, c2, hu2, _, hshape⟩ := Update_inv m msg hI
  rw [hu2] at hu
  simp only [Option.some.injEq, Prod.mk.injEq] at hu
  obtain ⟨rfl, _⟩ := hu
  obtain ⟨hle, hnew, _⟩ := shape_ids m m2 hshape
  refine ⟨hle, fun i hi hnot => ?_⟩
  rcases hnew i hi with h1 | ⟨h1, _⟩
  · exact absurd h1 hnot
  · exact ⟨h1, fun j hj => h1 ▸ hloglt j hj⟩

/-- C2 on a concrete run: task 3 is deleted and a task is added afterwards; the log
of issued ids is `2, 3, 4, 5, 0, 1, 6`, the new task has id `6`, not `3`. -/
theorem ids_unique_and_monotone_witness :
    Issued plainWidgets [2, 3, 4, 5, 0, 1, 6] readdedModel ∧
    ((ids readdedModel).Nodup ∧ (∀ i ∈ ids readdedModel, i < readdedModel.taskID) ∧
    [2, 3, 4, 5, 0, 1, (6 : Int)].Nodup ∧
    (∀ i ∈ [2, 3, 4, 5, 0, 1, (6 : Int)], i < readdedModel.taskID) ∧
    (∀ i ∈ ids readdedModel, i ∈ [2, 3, 4, 5, 0, 1, (6 : Int)]) ∧
    ∀ (msg : Msg) (m1 : model plainWidgets) (c : Cmd),
      Update plainWidgets readdedModel msg = some (m1, c) →
      readdedModel.taskID ≤ m1.taskID ∧
      ∀ i ∈ ids m1, i ∉ ids readdedModel →
        i = readdedModel.taskID ∧ ∀ j ∈ [2, 3, 4, 5, 0, 1, (6 : Int)], j < i) :=
  ⟨readdedModel_issued,
    ids_unique_and_monotone plainWidgets [2, 3, 4, 5, 0, 1, 6] readdedModel readdedModel_issued⟩

/-- C3 (complete): in a reachable `normalMode` state whose pending list is non-empty
with its cursor in range, the enter key removes the task at the pending cursor from
the pending list (length down by exactly one, pending cursor clamped) and appends
it, with the same id and name, to the end of the completed list (length up by
exactly one, the earlier items as before); the completed cursor, the id counter and
the mode stay.  With an empty pending list the enter key changes nothing. -/
theorem complete_moves_task (w : Widgets) (m : model w) (hr : Reachable w m)
    (hm : m.currentMode = mode.normalMode) :
    (0 ≤ m.normalList.cursor → m.normalList.cursor < (m.normalList.list.length : Int) →
      ∃ t m1, index m.normalList.list m.normalList.cursor = some t ∧
        Update w m (Msg.key keyEnter) = some (m1, Cmd.nil) ∧
        m1.normalList.list = m.normalList.list.eraseIdx m.normalList.cursor.toNat ∧
        m1.normalList.list.length + 1 = m.normalList.list.length ∧
        m1.normalList.cursor =
          max 0 (min m.normalList.cursor ((m.normalList.list.length : Int) - 2)) ∧
        m1.completedList.list = m.completedList.list ++ [t] ∧
        m1.completedList.list.length = m.completedList.list.length + 1 ∧
        m1.completedList.cursor = m.completedList.cursor ∧
        m1.taskID = m.taskID ∧
        m1.currentMode = mode.normalMode) ∧
    (m.normalList.list = [] → Update w m (Msg.key keyEnter) = some (m, Cmd.nil)) := by
  constructor
  · intro h0 h1
    obtain ⟨t, ht, hrem⟩ := remove_of_inRange m mode.normalMode m.normalList rfl h0 h1
    have hname : t.name ≠ "" :=
      names_of_reachable m hr t (List.mem_append.2 (Or.inl (index_mem _ _ t ht)))
    have hlt : m.normalList.cursor.toNat < m.normalList.list.length := by omega
    refine ⟨t,
      { m with
        normalList :=
          { list := m.normalList.list.eraseIdx m.normalList.cursor.toNat,
            cursor := max 0 (min m.normalList.cursor ((m.normalList.list.length : Int) - 2)) }
        completedList := { m.completedList with list := m.completedList.list ++ [t] } },
      ht, ?_, rfl, ?_, rfl, rfl, ?_, rfl, rfl, hm⟩
    · rw [Update_enter_normal m hm, hrem]
      dsimp only
      rw [if_pos hname]
      rfl
    · show (m.normalList.list.eraseIdx _).length + 1 = _
      rw [List.length_eraseIdx, if_pos hlt]
      omega
    · show (m.completedList.list ++ [t]).length = _
      simp
  · intro he
    rw [Update_enter_normal m hm, remove_of_empty m mode.normalMode m.normalList rfl he]
    simp [emptyTask]

/-- C3 on the scenario of the specification, reached from `initialModel()`: pending
`[{2, two}]` with cursor `0` and nothing completed becomes pending `[]`, completed
`[{2, two}]`, pending cursor `0`; and on the reachable state without pending tasks the
enter key changes nothing. -/
theorem complete_moves_task_witness :
    Reachable plainWidgets oneTaskModel ∧ Reachable plainWidgets emptiedModel ∧
    (∃ t m1, index oneTaskModel.normalList.list oneTaskModel.normalList.cursor = some t ∧
        t = { name := "two", id := 2 } ∧
        Update plainWidgets oneTaskModel (Msg.key keyEnter) = some (m1, Cmd.nil) ∧
        m1.normalList.list = [] ∧
        m1.normalList.list.length + 1 = oneTaskModel.normalList.list.length ∧
        m1.normalList.cursor = 0 ∧
        m1.completedList.list = oneTaskModel.completedList.list ++ [t] ∧
        m1.completedList.list.length = oneTaskModel.completedList.list.length + 1 ∧
        m1.completedList.cursor = oneTaskModel.completedList.cursor ∧
        m1.taskID = oneTaskModel.taskID ∧
        m1.currentMode = mode.normalMode) ∧
    Update plainWidgets emptiedModel (Msg.key keyEnter) = some (emptiedModel, Cmd.nil) :=
  ⟨oneTaskModel_reachable, emptiedModel_reachable,
    match (complete_moves_task plainWidgets oneTaskModel oneTaskModel_reachable rfl).1
        (by decide) (by decide) with
    | ⟨t, m1, h1, h2, h3, h4, h5, h6, h7, h8, h9, h10⟩ =>
      ⟨t, m1, h1, (Option.some.inj h1).symm, h2, h3, h4, h5, h6, h7, h8, h9, h10⟩,
    (complete_moves_task plainWidgets emptiedModel emptiedModel_reachable rfl).2 rfl⟩

/-- C4 (add flow): in `additionMode`, with the id counter at `n` and a text `t` in
the text input that is not blank, the enter key appends the one task `{id n, name t}`
to the pending list, sets the counter to `n + 1` and the mode to `normalMode`, and
leaves the pending cursor, the completed list and its cursor as they were. -/
theorem add_appends_task (w : Widgets) (m : model w) (n : Int) (t : String)
    (hm : m.currentMode = mode.additionMode) (hn : m.taskID = n)
    (ht : w.value m.additionTextInput = t) (hk : EnterKeepsText w m.additionTextInput)
    (hb : trimSpace t ≠ "") :
    ∃ m1, Update w m (Msg.key keyEnter) = some (m1, Cmd.nil) ∧
      m1.normalList.list = m.normalList.list ++ [{ name := t, id := n }] ∧
      m1.taskID = n + 1 ∧
      m1.currentMode = mode.normalMode ∧
      m1.normalList.cursor = m.normalList.cursor ∧
      m1.completedList = m.completedList := by
  have hv : w.value (w.inputUpdate m.additionTextInput (Msg.key keyEnter)) = t := hk.trans ht
  have hb1 : trimSpace (w.value (w.inputUpdate m.additionTextInput (Msg.key keyEnter))) ≠ "" := by
    rw [hv]
    exact hb
  refine ⟨_, Update_addition_insert m hm hb1, ?_, ?_, rfl, rfl, rfl⟩
  · show m.normalList.list ++ [_] = _
    rw [hv, hn]
  · show m.taskID + 1 = n + 1
    rw [hn]

/-- C4 on the scenario of the specification: pending `[{2, two}, {3, three}]`,
counter `6`, `six` typed, gives `[{2, two}, {3, three}, {6, six}]`. -/
theorem add_appends_task_witness :
    ∃ m1, Update plainWidgets typedSixModel (Msg.key keyEnter) = some (m1, Cmd.nil) ∧
      m1.normalList.list =
        [{ name := "two", id := 2 }, { name := "three", id := 3 }] ++
          [{ name := "six", id := 6 }] ∧
      m1.taskID = 6 + 1 ∧
      m1.currentMode = mode.normalMode ∧
      m1.normalList.cursor = typedSixModel.normalList.cursor ∧
      m1.completedList = typedSixModel.completedList :=
  add_appends_task plainWidgets typedSixModel 6 "six" rfl rfl rfl rfl (by decide)

/-- C5 (blank insert): in `additionMode`, with a text in the text input that is empty
or white space only, the enter key leaves both lists, both cursors and the id
counter as they were, empties the text input and sets the mode to `normalMode`. -/
theorem blank_add_is_noop (w : Widgets) (m : model w)
    (hm : m.currentMode = mode.additionMode) (hk : EnterKeepsText w m.additionTextInput)
    (hr : ResetClears w) (hb : trimSpace (w.value m.additionTextInput) = "") :
    ∃ m1, Update w m (Msg.key keyEnter) = some (m1, Cmd.nil) ∧
      m1.normalList = m.normalList ∧
      m1.completedList = m.completedList ∧
      m1.taskID = m.taskID ∧
      w.value m1.additionTextInput = "" ∧
      m1.currentMode = mode.normalMode := by
  have hb1 : trimSpace (w.value (w.inputUpdate m.additionTextInput (Msg.key keyEnter))) = "" := by
    rw [hk]
    exact hb
  exact ⟨_, Update_addition_blank m hm hb1, rfl, rfl, rfl, hr _, rfl⟩

/-- C5 on a concrete state: two spaces typed. -/
theorem blank_add_is_noop_witness :
    ∃ m1, Update plainWidgets typedBlankModel (Msg.key keyEnter) = some (m1, Cmd.nil) ∧
      m1.normalList = typedBlankModel.normalList ∧
      m1.completedList = typedBlankModel.completedList ∧
      m1.taskID = typedBlankModel.taskID ∧
      plainWidgets.value m1.additionTextInput = "" ∧
      m1.currentMode = mode.normalMode :=
  blank_add_is_noop plainWidgets typedBlankModel rfl rfl (fun _ => rfl) (by decide)

/-- C6 (remove at the cursor): for a mode `md` that is a key of the map, with list
`tl` and the cursor `c` within it, `removeTaskFromCurrentList(md)` returns the task at
index `c` and leaves for `md` the list with exactly that index erased (one shorter,
the other tasks in their order) and the cursor `max(0, min(c, len - 2))`; the list of
every other mode is untouched; and this is what the `d` key does when `md` is the
current mode. -/
theorem remove_at_cursor (w : Widgets) (m : model w) (md : mode) (tl : TaskList)
    (hK : taskListPerMode m md = some tl) (h0 : 0 ≤ tl.cursor)
    (h1 : tl.cursor < (tl.list.length : Int)) :
    ∃ t m1, index tl.list tl.cursor = some t ∧
      removeTaskFromCurrentList m md = some (m1, t) ∧
      taskListPerMode m1 md =
        some { list := tl.list.eraseIdx tl.cursor.toNat,
               cursor := max 0 (min tl.cursor ((tl.list.length : Int) - 2)) } ∧
      (tl.list.eraseIdx tl.cursor.toNat).length + 1 = tl.list.length ∧
      (∀ md1, md1 ≠ md → taskListPerMode m1 md1 = taskListPerMode m md1) ∧
      (m.currentMode = md → Update w m (Msg.key "d") = some (m1, Cmd.nil)) := by
  obtain ⟨t, ht, hr⟩ := remove_of_inRange m md tl hK h0 h1
  have hlt : tl.cursor.toNat < tl.list.length := by omega
  refine ⟨t, _, ht, hr, ?_, ?_, ?_, ?_⟩
  · cases md <;> simp [taskListPerMode, storeList] at hK ⊢
  · rw [List.length_eraseIdx, if_pos hlt]
    omega
  · intro md1 hne
    cases md <;> cases md1 <;> simp [taskListPerMode, storeList] at hK hne ⊢
  · intro hcur
    have ha : m.currentMode ≠ mode.additionMode := by
      rw [hcur]
      intro h
      rw [h] at hK
      simp [taskListPerMode] at hK
    have he : m.currentMode ≠ mode.editingMode := by
      rw [hcur]
      intro h
      rw [h] at hK
      simp [taskListPerMode] at hK
    rw [Update_d m ha he, hcur, hr]

/-- C6 on `initialModel()`: removing at cursor `1` of the four pending tasks returns
`{3, three}` and leaves `[{2, two}, {4, four}, {5, five}]` with the cursor at `1`. -/
theorem remove_at_cursor_witness :
    ∃ t m1, index (initialModel plainWidgets).normalList.list 1 = some t ∧
      t = { name := "three", id := 3 } ∧
      removeTaskFromCurrentList (initialModel plainWidgets) mode.normalMode = some (m1, t) ∧
      taskListPerMode m1 mode.normalMode =
        some { list := [{ name := "two", id := 2 }, { name := "four", id := 4 },
                        { name := "five", id := 5 }],
               cursor := 1 } ∧
      (∀ md1, md1 ≠ mode.normalMode →
        taskListPerMode m1 md1 = taskListPerMode (initialModel plainWidgets) md1) ∧
      Update plainWidgets (initialModel plainWidgets) (Msg.key "d") = some (m1, Cmd.nil) :=
  match remove_at_cursor plainWidgets (initialModel plainWidgets) mode.normalMode
      (initialModel plainWidgets).normalList rfl (by decide) (by decide) with
  | ⟨t, m1, h1, h2, h3, _, h5, h6⟩ =>
    ⟨t, m1, h1, (Option.some.inj h1).symm, h2, h3, h5, h6 rfl⟩

/-- C7 (remove on an empty list): for a mode `md` that is a key of the map and whose
list is empty, `removeTaskFromCurrentList(md)` returns the empty `Task` value and the
state it was given, and so does the `d` key when `md` is the current mode: lists,
cursors and id counter are as before. -/
theorem remove_on_empty (w : Widgets) (m : model w) (md : mode) (tl : TaskList)
    (hK : taskListPerMode m md = some tl) (he : tl.list = []) :
    removeTaskFromCurrentList m md = some (m, { name := "", id := 0 }) ∧
    (m.currentMode = md → Update w m (Msg.key "d") = some (m, Cmd.nil)) := by
  have hr := remove_of_empty m md tl hK he
  refine ⟨hr, ?_⟩
  intro hcur
  have ha : m.currentMode ≠ mode.additionMode := by
    rw [hcur]
    intro h
    rw [h] at hK
    simp [taskListPerMode] at hK
  have hed : m.currentMode ≠ mode.editingMode := by
    rw [hcur]
    intro h
    rw [h] at hK
    simp [taskListPerMode] at hK
  rw [Update_d m ha hed, hcur, hr]

/-- C7 on the state without pending tasks. -/
theorem remove_on_empty_witness :
    removeTaskFromCurrentList emptiedModel mode.normalMode =
      some (emptiedModel, { name := "", id := 0 }) ∧
    Update plainWidgets emptiedModel (Msg.key "d") = some (emptiedModel, Cmd.nil) :=
  ⟨(remove_on_empty plainWidgets emptiedModel mode.normalMode emptiedModel.normalList
      rfl rfl).1,
    (remove_on_empty plainWidgets emptiedModel mode.normalMode emptiedModel.normalList
      rfl rfl).2 rfl⟩

/-- C8 (rename in place): in a reachable `editingMode` state whose text input holds a
text `b` that is not blank, the enter key replaces the name of the pending task at
the cursor by `b` and nothing else: the pending list keeps its length, every task
keeps its id and its position, every task off the cursor is the same task, both
cursors, the completed list and the id counter are as before, and the mode becomes
`normalMode`. -/
theorem rename_in_place (w : Widgets) (m : model w) (b : String)
    (hr : Reachable w m) (hm : m.currentMode = mode.editingMode)
    (hv : w.value m.additionTextInput = b) (hk : EnterKeepsText w m.additionTextInput)
    (hb : trimSpace b ≠ "") :
    ∃ t m1, index m.normalList.list m.normalList.cursor = some t ∧
      Update w m (Msg.key keyEnter) = some (m1, Cmd.nil) ∧
      m1.normalList.list =
        m.normalList.list.set m.normalList.cursor.toNat { name := b, id := t.id } ∧
      m1.normalList.list.length = m.normalList.list.length ∧
      m1.normalList.list.map Task.id = m.normalList.list.map Task.id ∧
      (∀ i, i ≠ m.normalList.cursor.toNat →
        m1.normalList.list.get? i = m.normalList.list.get? i) ∧
      m1.normalList.list.get? m.normalList.cursor.toNat = some { name := b, id := t.id } ∧
      m1.normalList.cursor = m.normalList.cursor ∧
      m1.completedList = m.completedList ∧
      m1.taskID = m.taskID ∧
      m1.currentMode = mode.normalMode := by
  obtain ⟨hN, _, hE⟩ := inv_of_reachable m hr
  obtain ⟨h0, h1⟩ := cursorOK_nonempty _ hN (hE hm)
  obtain ⟨t, ht, hg⟩ := index_of_inRange _ _ h0 h1
  have hv1 : w.value (w.inputUpdate m.additionTextInput (Msg.key keyEnter)) = b := hk.trans hv
  have hne : w.value (w.inputUpdate m.additionTextInput (Msg.key keyEnter)) ≠ "" := by
    rw [hv1]
    exact ne_empty_of_not_blank b hb
  refine ⟨t,
    { m with
      additionTextInput := w.inputUpdate m.additionTextInput (Msg.key keyEnter)
      normalList :=
        { list := m.normalList.list.set m.normalList.cursor.toNat { name := b, id := t.id },
          cursor := m.normalList.cursor }
      currentMode := mode.normalMode },
    ht, ?_, rfl, ?_, ?_, ?_, ?_, rfl, rfl, rfl, rfl⟩
  · rw [Update_editing_rename m hm hne]
    simp only [setName, ht, hv1]
  · show (m.normalList.list.set _ _).length = _
    rw [List.length_set]
  · exact map_id_set _ _ t b hg
  · intro i hi
    show (m.normalList.list.set _ _).get? i = _
    simp [List.getElem?_set, Ne.symm hi]
  · exact getOpt_set_id _ _ t b hg

/-- C8 on a concrete run: after `e` and `!` on `initialModel()` the text is `three!`;
the enter key renames task 3, at cursor `1`, and leaves the other three tasks. -/
theorem rename_in_place_witness :
    ∃ t m1, index editedModel.normalList.list editedModel.normalList.cursor = some t ∧
      Update plainWidgets editedModel (Msg.key keyEnter) = some (m1, Cmd.nil) ∧
      m1.normalList.list =
        editedModel.normalList.list.set editedModel.normalList.cursor.toNat
          { name := "three!", id := t.id } ∧
      m1.normalList.list.length = editedModel.normalList.list.length ∧
      m1.normalList.list.map Task.id = editedModel.normalList.list.map Task.id ∧
      (∀ i, i ≠ editedModel.normalList.cursor.toNat →
        m1.normalList.list.get? i = editedModel.normalList.list.get? i) ∧
      m1.normalList.list.get? editedModel.normalList.cursor.toNat =
        some { name := "three!", id := t.id } ∧
      m1.normalList.cursor = editedModel.normalList.cursor ∧
      m1.completedList = editedModel.completedList ∧
      m1.taskID = editedModel.taskID ∧
      m1.currentMode = mode.normalMode :=
  rename_in_place plainWidgets editedModel "three!" editedModel_reachable rfl rfl rfl
    (by decide)

/-- C9 (delete by empty rename): in a reachable `editingMode` state whose text input
is empty, the enter key leaves the same two lists, cursors and id counter as the `d`
key leaves when pressed in `normalMode` on the same lists, cursors and counter (the
pending task at the cursor is gone), and the mode becomes `normalMode`. -/
theorem empty_rename_is_delete (w : Widgets) (m : model w)
    (hr : Reachable w m) (hm : m.currentMode = mode.editingMode)
    (hv : w.value m.additionTextInput = "") (hk : EnterKeepsText w m.additionTextInput) :
    ∃ m1 m2, Update w m (Msg.key keyEnter) = some (m1, Cmd.nil) ∧
      Update w { m with currentMode := mode.normalMode } (Msg.key "d") = some (m2, Cmd.nil) ∧
      m1.normalList = m2.normalList ∧
      m1.completedList = m2.completedList ∧
      m1.taskID = m2.taskID ∧
      m1.normalList.list = m.normalList.list.eraseIdx m.normalList.cursor.toNat ∧
      m1.currentMode = mode.normalMode := by
  obtain ⟨hN, _, hE⟩ := inv_of_reachable m hr
  obtain ⟨h0, h1⟩ := cursorOK_nonempty _ hN (hE hm)
  have hv1 : w.value (w.inputUpdate m.additionTextInput (Msg.key keyEnter)) = "" := hk.trans hv
  obtain ⟨t, _, hr1⟩ := remove_of_inRange
    { m with additionTextInput := w.inputUpdate m.additionTextInput (Msg.key keyEnter) }
    mode.normalMode m.normalList rfl h0 h1
  obtain ⟨t2, _, hr2⟩ := remove_of_inRange
    { m with currentMode := mode.normalMode } mode.normalMode m.normalList rfl h0 h1
  have hu1 := Update_editing_empty m hm hv1
  rw [hr1] at hu1
  have hu2 := Update_d (w := w) { m with currentMode := mode.normalMode } (by simp) (by simp)
  have hcur : ({ m with currentMode := mode.normalMode } : model w).currentMode =
      mode.normalMode := rfl
  rw [hcur, hr2] at hu2
  exact ⟨_, _, hu1, hu2, rfl, rfl, rfl, rfl, rfl⟩

/-- C9 on the scenario of the specification: pending `[{2, two}, {3, three}]` with the
cursor on `three`, the text cleared; the enter key leaves pending `[{2, two}]`. -/
theorem empty_rename_is_delete_witness :
    ∃ m1 m2, Update plainWidgets clearedEditModel (Msg.key keyEnter) = some (m1, Cmd.nil) ∧
      Update plainWidgets { clearedEditModel with currentMode := mode.normalMode }
        (Msg.key "d") = some (m2, Cmd.nil) ∧
      m1.normalList = m2.normalList ∧
      m1.completedList = m2.completedList ∧
      m1.taskID = m2.taskID ∧
      m1.normalList.list = [{ name := "two", id := 2 }] ∧
      m1.currentMode = mode.normalMode :=
  empty_rename_is_delete plainWidgets clearedEditModel clearedEditModel_reachable rfl rfl rfl

/-- C10, the code at the failing input: in the reachable `editingMode` state whose text
input holds one space, a text that is blank in the sense of `additionMode`, the
enter key removes no task; the pending list keeps its four tasks and task 3 is
renamed to the space, where `removeTaskFromCurrentList(normalMode)` would have left
the three other tasks. -/
theorem blank_edit_renames :
    Reachable plainWidgets blankEditModel ∧
    blankEditModel.currentMode = mode.editingMode ∧
    trimSpace (plainWidgets.value blankEditModel.additionTextInput) = "" ∧
    Update plainWidgets blankEditModel (Msg.key keyEnter) =
      some ({ blankEditModel with
        currentMode := mode.normalMode
        normalList :=
          { list := [{ name := "two", id := 2 }, { name := " ", id := 3 },
                     { name := "four", id := 4 }, { name := "five", id := 5 }],
            cursor := 1 } }, Cmd.nil) ∧
    (removeTaskFromCurrentList blankEditModel mode.normalMode).map
        (fun r => r.1.normalList.list) =
      some [{ name := "two", id := 2 }, { name := "four", id := 4 },
            { name := "five", id := 5 }] :=
  ⟨blankEditModel_reachable, rfl, by decide, rfl, rfl⟩

/-- C11, the code at the failing input: in the reachable `normalMode` state left by
`e` and `enter` on `initialModel()` the text input still holds `three`; the `a` key
sets `additionMode` and leaves lists, cursors and id counter alone, but it does not
touch the text input, which enters `additionMode` holding `three`. -/
theorem add_key_keeps_stale_text :
    Reachable plainWidgets staleModel ∧
    staleModel.currentMode = mode.normalMode ∧
    Update plainWidgets staleModel (Msg.key "a") =
      some ({ staleModel with currentMode := mode.additionMode }, Cmd.blink) ∧
    plainWidgets.value
      ({ staleModel with currentMode := mode.additionMode } :
        model plainWidgets).additionTextInput = "three" ∧
    plainWidgets.value
      ({ staleModel with currentMode := mode.additionMode } :
        model plainWidgets).additionTextInput ≠ "" :=
  ⟨staleModel_reachable, rfl, rfl, rfl, by decide⟩

/-- C12 as stated fails in the two text-entry modes: in `additionMode` and in
`editingMode` the key `q`, a key of `quitKeys`, is handed to the text input and typed
into it; `quitting` stays `false` and the command is the one of the text input, not
`tea.Quit`. -/
theorem quit_key_typed_in_text_modes :
    "q" ∈ quitKeys ∧
    typedSixModel.currentMode = mode.additionMode ∧
    Update plainWidgets typedSixModel (Msg.key "q") =
      some ({ typedSixModel with additionTextInput := ("sixq" : String) }, Cmd.input) ∧
    ({ typedSixModel with additionTextInput := ("sixq" : String) } :
      model plainWidgets).quitting = false ∧
    editedModel.currentMode = mode.editingMode ∧
    Update plainWidgets editedModel (Msg.key "q") =
      some ({ editedModel with additionTextInput := ("three!q" : String) }, Cmd.input) ∧
    ({ editedModel with additionTextInput := ("three!q" : String) } :
      model plainWidgets).quitting = false ∧
    Cmd.input ≠ Cmd.quit :=
  ⟨by decide, rfl, rfl, rfl, rfl, rfl, rfl, by decide⟩

/-- C12, amended (quit while browsing): in `normalMode` and in `completedMode`, for
every key of `quitKeys` (`q`, `esc`, `ctrl+c`), `Update` sets `quitting` and returns
`tea.Quit`, with both lists, both cursors and the id counter as before; in
`additionMode` and in `editingMode` the key `q` is text: it is handed to the text
input, `quitting` is as before, the command is the one of the text input, and the
lists, the cursors, the id counter and the mode are as before. -/
theorem quit_in_browsing (w : Widgets) (m : model w) :
    ((m.currentMode = mode.normalMode ∨ m.currentMode = mode.completedMode) →
      ∀ k ∈ quitKeys,
      ∃ m1, Update w m (Msg.key k) = some (m1, Cmd.quit) ∧
        m1.quitting = true ∧
        m1.normalList = m.normalList ∧ m1.completedList = m.completedList ∧
        m1.taskID = m.taskID ∧ m1.currentMode = m.currentMode) ∧
    ((m.currentMode = mode.additionMode ∨ m.currentMode = mode.editingMode) →
      ∃ m1, Update w m (Msg.key "q") = some (m1, Cmd.input) ∧
        m1.quitting = m.quitting ∧
        m1.additionTextInput = w.inputUpdate m.additionTextInput (Msg.key "q") ∧
        m1.normalList = m.normalList ∧ m1.completedList = m.completedList ∧
        m1.taskID = m.taskID ∧ m1.currentMode = m.currentMode) := by
  have hne : Msg.key "q" ≠ Msg.key keyEnter := by decide
  constructor
  · intro hm k hk
    have ha : m.currentMode ≠ mode.additionMode := by
      rcases hm with h | h <;> simp [h]
    have he : m.currentMode ≠ mode.editingMode := by
      rcases hm with h | h <;> simp [h]
    exact ⟨_, Update_quit m k ha he hk, rfl, rfl, rfl, rfl, rfl⟩
  · intro hm
    rcases hm with h | h
    · exact ⟨_, Update_addition_other m _ h hne, rfl, rfl, rfl, rfl, rfl, rfl⟩
    · exact ⟨_, Update_editing_other m _ h hne, rfl, rfl, rfl, rfl, rfl, rfl⟩

/-- C12 on concrete states: `esc` on `initialModel()` quits; `q` on the `additionMode`
state with `six` typed is handed to the text input. -/
theorem quit_in_browsing_witness :
    (∃ m1, Update plainWidgets (initialModel plainWidgets) (Msg.key "esc") =
        some (m1, Cmd.quit) ∧
      m1.quitting = true ∧
      m1.normalList = (initialModel plainWidgets).normalList ∧
      m1.completedList = (initialModel plainWidgets).completedList ∧
      m1.taskID = (initialModel plainWidgets).taskID ∧
      m1.currentMode = (initialModel plainWidgets).currentMode) ∧
    (∃ m1, Update plainWidgets typedSixModel (Msg.key "q") = some (m1, Cmd.input) ∧
      m1.quitting = typedSixModel.quitting ∧
      m1.additionTextInput =
        plainWidgets.inputUpdate typedSixModel.additionTextInput (Msg.key "q") ∧
      m1.normalList = typedSixModel.normalList ∧
      m1.completedList = typedSixModel.completedList ∧
      m1.taskID = typedSixModel.taskID ∧ m1.currentMode = typedSixModel.currentMode) :=
  ⟨(quit_in_browsing plainWidgets (initialModel plainWidgets)).1 (Or.inl rfl) "esc"
      (by decide),
    (quit_in_browsing plainWidgets typedSixModel).2 (Or.inl rfl)⟩

/-- C13 (cursor moves clamp): in a browsing state whose current list `tl` has its
cursor in order, `up` and `left` set that cursor to `max(0, min(cursor - 1, len - 1))`
and `down` and `right` set it to `max(0, min(cursor + 1, len - 1))`; on an empty list
the state is returned as it is; the items of the list, the list of every other mode,
the id counter and the mode are as before. -/
theorem move_cursor_clamps (w : Widgets) (m : model w) (k : String) (tl : TaskList)
    (hK : taskListPerMode m m.currentMode = some tl) (hc : CursorOK tl) :
    ((k = keyUp ∨ k = keyLeft) →
      ∃ m1, Update w m (Msg.key k) = some (m1, Cmd.nil) ∧
        taskListPerMode m1 m.currentMode =
          some { list := tl.list,
                 cursor := if tl.list = [] then tl.cursor
                   else max 0 (min (tl.cursor - 1) ((tl.list.length : Int) - 1)) } ∧
        (∀ md, md ≠ m.currentMode → taskListPerMode m1 md = taskListPerMode m md) ∧
        m1.taskID = m.taskID ∧ m1.currentMode = m.currentMode ∧
        (tl.list = [] → m1 = m)) ∧
    ((k = keyDown ∨ k = keyRight) →
      ∃ m1, Update w m (Msg.key k) = some (m1, Cmd.nil) ∧
        taskListPerMode m1 m.currentMode =
          some { list := tl.list,
                 cursor := if tl.list = [] then tl.cursor
                   else max 0 (min (tl.cursor + 1) ((tl.list.length : Int) - 1)) } ∧
        (∀ md, md ≠ m.currentMode → taskListPerMode m1 md = taskListPerMode m md) ∧
        m1.taskID = m.taskID ∧ m1.currentMode = m.currentMode ∧
        (tl.list = [] → m1 = m)) := by
  obtain ⟨ha, he⟩ := browsing_of_lookup m tl hK
  constructor
  · intro hk
    have hu := Update_up m k tl ha he hk hK
    have hres : (if tl.cursor > 0
        then storeList m m.currentMode { tl with cursor := tl.cursor - 1 } else m) =
        storeList m m.currentMode
          { list := tl.list, cursor := if tl.cursor > 0 then tl.cursor - 1 else tl.cursor } := by
      split_ifs
      · rfl
      · exact (storeList_self m _ tl hK).symm
    rw [hres, up_clamp tl hc] at hu
    obtain ⟨f1, f2, f3, f4, _, _⟩ := storeList_frame m m.currentMode tl
      { list := tl.list,
        cursor := if tl.list = [] then tl.cursor
          else max 0 (min (tl.cursor - 1) ((tl.list.length : Int) - 1)) } hK
    refine ⟨_, hu, f1, f2, f3, f4, ?_⟩
    intro hnil
    rw [if_pos hnil]
    exact storeList_self m _ tl hK
  · intro hk
    have hu := Update_down m k tl ha he hk hK
    have hres : (if tl.cursor < (tl.list.length : Int) - 1
        then storeList m m.currentMode { tl with cursor := tl.cursor + 1 } else m) =
        storeList m m.currentMode
          { list := tl.list,
            cursor := if tl.cursor < (tl.list.length : Int) - 1
              then tl.cursor + 1 else tl.cursor } := by
      split_ifs
      · rfl
      · exact (storeList_self m _ tl hK).symm
    rw [hres, down_clamp tl hc] at hu
    obtain ⟨f1, f2, f3, f4, _, _⟩ := storeList_frame m m.currentMode tl
      { list := tl.list,
        cursor := if tl.list = [] then tl.cursor
          else max 0 (min (tl.cursor + 1) ((tl.list.length : Int) - 1)) } hK
    refine ⟨_, hu, f1, f2, f3, f4, ?_⟩
    intro hnil
    rw [if_pos hnil]
    exact storeList_self m _ tl hK

/-- C13 on concrete states: on `initialModel()` (pending cursor `1` of four) `up` gives
cursor `0` and `down` gives cursor `2`; on the state without pending tasks both give
the state back. -/
theorem move_cursor_clamps_witness :
    (∃ m1, Update plainWidgets (initialModel plainWidgets) (Msg.key "up") =
        some (m1, Cmd.nil) ∧
      m1.normalList = { list := (initialModel plainWidgets).normalList.list, cursor := 0 } ∧
      m1.completedList = (initialModel plainWidgets).completedList) ∧
    (∃ m1, Update plainWidgets (initialModel plainWidgets) (Msg.key "down") =
        some (m1, Cmd.nil) ∧
      m1.normalList = { list := (initialModel plainWidgets).normalList.list, cursor := 2 } ∧
      m1.completedList = (initialModel plainWidgets).completedList) ∧
    Update plainWidgets emptiedModel (Msg.key "up") = some (emptiedModel, Cmd.nil) ∧
    Update plainWidgets emptiedModel (Msg.key "down") = some (emptiedModel, Cmd.nil) :=
  ⟨match (move_cursor_clamps plainWidgets (initialModel plainWidgets) "up"
        (initialModel plainWidgets).normalList rfl (Or.inl (by decide))).1 (Or.inl rfl) with
    | ⟨m1, h1, h2, h3, _⟩ =>
      ⟨m1, h1, Option.some.inj h2, Option.some.inj (h3 mode.completedMode (by decide))⟩,
   match (move_cursor_clamps plainWidgets (initialModel plainWidgets) "down"
        (initialModel plainWidgets).normalList rfl (Or.inl (by decide))).2 (Or.inl rfl) with
    | ⟨m1, h1, h2, h3, _⟩ =>
      ⟨m1, h1, Option.some.inj h2, Option.some.inj (h3 mode.completedMode (by decide))⟩,
   match (move_cursor_clamps plainWidgets emptiedModel "up"
        emptiedModel.normalList rfl (Or.inr ⟨rfl, rfl⟩)).1 (Or.inl rfl) with
    | ⟨_, h1, _, _, _, _, h6⟩ => (h6 rfl) ▸ h1,
   match (move_cursor_clamps plainWidgets emptiedModel "down"
        emptiedModel.normalList rfl (Or.inr ⟨rfl, rfl⟩)).2 (Or.inl rfl) with
    | ⟨_, h1, _, _, _, _, h6⟩ => (h6 rfl) ▸ h1⟩

/-- C14 (editing is entered from pending browsing and left for it): whatever the
state and the message, if `Update` returns a state in `editingMode` then the state
before was in `editingMode` already, or it was in `normalMode` with a non-empty
pending list and the message was the `e` key; the `e` key in `completedMode`, and in
`normalMode` with an empty pending list, returns the state as it is; and the enter
key in `editingMode` never returns a state in another mode than `normalMode`, and
does return one when the pending cursor is within the pending list. -/
theorem editing_entered_from_pending (w : Widgets) (m : model w) :
    (∀ (msg : Msg) (m1 : model w) (c : Cmd), Update w m msg = some (m1, c) →
      m1.currentMode = mode.editingMode →
      m.currentMode = mode.editingMode ∨
        (m.currentMode = mode.normalMode ∧ m.normalList.list ≠ [] ∧ msg = Msg.key "e")) ∧
    (m.currentMode = mode.completedMode → Update w m (Msg.key "e") = some (m, Cmd.nil)) ∧
    (m.currentMode = mode.normalMode → m.normalList.list = [] →
      Update w m (Msg.key "e") = some (m, Cmd.nil)) ∧
    (m.currentMode = mode.editingMode →
      ∀ (m1 : model w) (c : Cmd), Update w m (Msg.key keyEnter) = some (m1, c) →
        m1.currentMode = mode.normalMode) ∧
    (m.currentMode = mode.editingMode → 0 ≤ m.normalList.cursor →
      m.normalList.cursor < (m.normalList.list.length : Int) →
      ∃ m1, Update w m (Msg.key keyEnter) = some (m1, Cmd.nil) ∧
        m1.currentMode = mode.normalMode) := by
  refine ⟨?_, ?_, ?_, ?_, ?_⟩
  · intro msg m1 c h h1
    by_cases he : m.currentMode = mode.editingMode
    · exact Or.inl he
    by_cases ha : m.currentMode = mode.additionMode
    · exact absurd h1 (addition_never_to_editing m m1 msg c ha h)
    · exact Or.inr (editing_only_by_e m m1 msg c ha he h h1)
  · intro hm
    exact Update_e_completed m hm
  · intro hm hnil
    rw [Update_e_normal m hm, if_pos (by simp [hnil])]
  · intro he m1 c h
    exact editing_enter_mode m m1 c he h
  · intro he h0 h1
    obtain ⟨m1, h⟩ := editing_enter_total m he h0 h1
    exact ⟨m1, h, editing_enter_mode m m1 _ he h⟩

/-- C14 on concrete states: the `e` key on `initialModel()` enters `editingMode` from
`normalMode` with a non-empty pending list; in `completedMode` and on the state
without pending tasks it changes nothing; the enter key on the reachable
`editingMode` state with `three!` typed leads to `normalMode`. -/
theorem editing_entered_from_pending_witness :
    ((initialModel plainWidgets).currentMode = mode.editingMode ∨
      ((initialModel plainWidgets).currentMode = mode.normalMode ∧
        (initialModel plainWidgets).normalList.list ≠ [] ∧
        Msg.key "e" = Msg.key "e")) ∧
    Update plainWidgets { initialModel plainWidgets with currentMode := mode.completedMode }
        (Msg.key "e") =
      some ({ initialModel plainWidgets with currentMode := mode.completedMode }, Cmd.nil) ∧
    Update plainWidgets emptiedModel (Msg.key "e") = some (emptiedModel, Cmd.nil) ∧
    (∃ m1, Update plainWidgets editedModel (Msg.key keyEnter) = some (m1, Cmd.nil) ∧
      m1.currentMode = mode.normalMode) :=
  ⟨(editing_entered_from_pending plainWidgets (initialModel plainWidgets)).1 (Msg.key "e")
      { initialModel plainWidgets with
        currentMode := mode.editingMode
        additionTextInput := ("three" : String) } Cmd.blink rfl rfl,
    (editing_entered_from_pending plainWidgets
      { initialModel plainWidgets with currentMode := mode.completedMode }).2.1 rfl,
    (editing_entered_from_pending plainWidgets emptiedModel).2.2.1 rfl rfl,
    (editing_entered_from_pending plainWidgets editedModel).2.2.2.2 rfl (by decide)
      (by decide)⟩

/-- C15 (side effects are confined to the current list): in `completedMode` no key
changes the pending list, its cursor or the id counter, and the enter key returns
the state as it is; in `normalMode` the keys `up`, `down`, `left`, `right` and `d`
leave the completed list and its cursor as they were.  When both cursors are in
order `Update` does return a state for each of these keys. -/
theorem effects_confined (w : Widgets) (m : model w) :
    (m.currentMode = mode.completedMode →
      (∀ (k : String) (m1 : model w) (c : Cmd), Update w m (Msg.key k) = some (m1, c) →
        m1.normalList = m.normalList ∧ m1.taskID = m.taskID) ∧
      Update w m (Msg.key keyEnter) = some (m, Cmd.nil) ∧
      (CursorOK m.normalList → CursorOK m.completedList →
        ∀ k : String, ∃ m1 c, Update w m (Msg.key k) = some (m1, c))) ∧
    (m.currentMode = mode.normalMode →
      (∀ (k : String) (m1 : model w) (c : Cmd),
        k = keyUp ∨ k = keyDown ∨ k = keyLeft ∨ k = keyRight ∨ k = "d" →
        Update w m (Msg.key k) = some (m1, c) → m1.completedList = m.completedList) ∧
      (CursorOK m.normalList → CursorOK m.completedList →
        ∀ k : String, ∃ m1 c, Update w m (Msg.key k) = some (m1, c))) := by
  constructor
  · intro hm
    have ha : m.currentMode ≠ mode.additionMode := by simp [hm]
    have he : m.currentMode ≠ mode.editingMode := by simp [hm]
    refine ⟨?_, Update_enter_completed m hm, ?_⟩
    · intro k m1 c h
      obtain ⟨h1, h2⟩ := browsing_key_frame m m1 k c ha he (by simp [hm]) h
      have h3 := h1 mode.normalMode (by simp [hm])
      exact ⟨Option.some.inj h3, h2⟩
    · intro hN hC k
      obtain ⟨m1, c, h, _⟩ := Update_inv m (Msg.key k) ⟨hN, hC, fun h => absurd h he⟩
      exact ⟨m1, c, h⟩
  · intro hm
    have ha : m.currentMode ≠ mode.additionMode := by simp [hm]
    have he : m.currentMode ≠ mode.editingMode := by simp [hm]
    refine ⟨?_, ?_⟩
    · intro k m1 c hk h
      have hne : ¬ (m.currentMode = mode.normalMode ∧ k = keyEnter) := by
        rintro ⟨_, rfl⟩
        simp [keyUp, keyDown, keyLeft, keyRight, keyEnter] at hk
      obtain ⟨h1, _⟩ := browsing_key_frame m m1 k c ha he hne h
      have h3 := h1 mode.completedMode (by simp [hm])
      exact Option.some.inj h3
    · intro hN hC k
      obtain ⟨m1, c, h, _⟩ := Update_inv m (Msg.key k) ⟨hN, hC, fun h => absurd h he⟩
      exact ⟨m1, c, h⟩

/-- C15 on concrete states: `d` in `completedMode` on the seed lists removes the
completed task at cursor `1` and leaves the pending list and the counter; `d` in
`normalMode` on `initialModel()` leaves the completed list. -/
theorem effects_confined_witness :
    (∃ m1, Update plainWidgets
        { initialModel plainWidgets with currentMode := mode.completedMode } (Msg.key "d") =
        some (m1, Cmd.nil) ∧
      m1.completedList = { list := [{ name := "completed-zero", id := 0 }], cursor := 0 } ∧
      m1.normalList = (initialModel plainWidgets).normalList ∧
      m1.taskID = (initialModel plainWidgets).taskID) ∧
    Update plainWidgets { initialModel plainWidgets with currentMode := mode.completedMode }
        (Msg.key keyEnter) =
      some ({ initialModel plainWidgets with currentMode := mode.completedMode }, Cmd.nil) ∧
    (∃ m1, Update plainWidgets (initialModel plainWidgets) (Msg.key "d") =
        some (m1, Cmd.nil) ∧
      m1.completedList = (initialModel plainWidgets).completedList) :=
  ⟨⟨_, rfl, rfl,
      ((effects_confined plainWidgets
        { initialModel plainWidgets with currentMode := mode.completedMode }).1 rfl).1
        "d" _ Cmd.nil rfl⟩,
    ((effects_confined plainWidgets
      { initialModel plainWidgets with currentMode := mode.completedMode }).1 rfl).2.1,
    ⟨_, rfl,
      ((effects_confined plainWidgets (initialModel plainWidgets)).2 rfl).1
        "d" _ Cmd.nil (Or.inr (Or.inr (Or.inr (Or.inr rfl)))) rfl⟩⟩

/-- C16 (insert, then remove the inserted task): in `additionMode` with pending items
`L` and a text `t` that is not blank, the enter key inserts the task `{id taskID,
name t}`; with the pending cursor then put on it, at index `len L`,
`removeTaskFromCurrentList(normalMode)` returns that task and leaves the pending
items equal to `L` with the cursor at `max(len L - 1, 0)`; the id counter stays at
`taskID + 1` and the completed list is untouched.  The cursor before the insertion
plays no part. -/
theorem insert_remove_round_trip (w : Widgets) (m : model w) (L : List Task) (t : String)
    (hm : m.currentMode = mode.additionMode) (hL : m.normalList.list = L)
    (ht : w.value m.additionTextInput = t) (hk : EnterKeepsText w m.additionTextInput)
    (hb : trimSpace t ≠ "") :
    ∃ m1 m2, Update w m (Msg.key keyEnter) = some (m1, Cmd.nil) ∧
      m1.normalList.list = L ++ [{ name := t, id := m.taskID }] ∧
      removeTaskFromCurrentList
          { m1 with normalList := { m1.normalList with cursor := (L.length : Int) } }
          mode.normalMode = some (m2, { name := t, id := m.taskID }) ∧
      m2.normalList.list = L ∧
      m2.normalList.cursor = max ((L.length : Int) - 1) 0 ∧
      m2.taskID = m.taskID + 1 ∧
      m2.completedList = m.completedList := by
  have hv : w.value (w.inputUpdate m.additionTextInput (Msg.key keyEnter)) = t := hk.trans ht
  have hb1 : trimSpace (w.value (w.inputUpdate m.additionTextInput (Msg.key keyEnter))) ≠ "" := by
    rw [hv]
    exact hb
  have hu := Update_addition_insert m hm hb1
  rw [hv, hL] at hu
  have hlen : ((L ++ [({ name := t, id := m.taskID } : Task)]).length : Int) =
      (L.length : Int) + 1 := by simp
  obtain ⟨x, hx, hr⟩ := remove_of_inRange
    ({ m with
        additionTextInput := w.reset (w.inputUpdate m.additionTextInput (Msg.key keyEnter))
        taskID := m.taskID + 1
        normalList :=
          { list := L ++ [{ name := t, id := m.taskID }], cursor := (L.length : Int) }
        currentMode := mode.normalMode } : model w)
    mode.normalMode
    { list := L ++ [{ name := t, id := m.taskID }], cursor := (L.length : Int) } rfl
    (by show (0 : Int) ≤ (L.length : Int); omega)
    (by show (L.length : Int) < ((L ++ [_]).length : Int); rw [hlen]; omega)
  have hx2 : x = { name := t, id := m.taskID } := by
    have h2 := index_append_last L { name := t, id := m.taskID }
    change index (L ++ [{ name := t, id := m.taskID }]) (L.length : Int) = some x at hx
    rw [h2] at hx
    exact (Option.some.inj hx).symm
  subst hx2
  refine ⟨_, _, hu, rfl, hr, ?_, ?_, rfl, rfl⟩
  · show (L ++ [_]).eraseIdx (L.length : Int).toNat = L
    rw [Int.toNat_ofNat]
    exact eraseIdx_append_last L _
  · show max 0 (min (L.length : Int) (((L ++ [_]).length : Int) - 2)) = _
    rw [hlen]
    omega

/-- C16 on the insertion scenario: `six` is inserted after two pending tasks with id
`6`; removed again at index `2`, it leaves the two tasks, the cursor at `1` and the
counter at `7`. -/
theorem insert_remove_round_trip_witness :
    ∃ m1 m2, Update plainWidgets typedSixModel (Msg.key keyEnter) = some (m1, Cmd.nil) ∧
      m1.normalList.list =
        [{ name := "two", id := 2 }, { name := "three", id := 3 }] ++
          [{ name := "six", id := typedSixModel.taskID }] ∧
      removeTaskFromCurrentList
          { m1 with normalList := { m1.normalList with
              cursor := (([{ name := "two", id := 2 },
                { name := "three", id := 3 }] : List Task).length : Int) } }
          mode.normalMode = some (m2, { name := "six", id := typedSixModel.taskID }) ∧
      m2.normalList.list = [{ name := "two", id := 2 }, { name := "three", id := 3 }] ∧
      m2.normalList.cursor =
        max ((([{ name := "two", id := 2 },
          { name := "three", id := 3 }] : List Task).length : Int) - 1) 0 ∧
      m2.taskID = typedSixModel.taskID + 1 ∧
      m2.completedList = typedSixModel.completedList :=
  insert_remove_round_trip plainWidgets typedSixModel
    [{ name := "two", id := 2 }, { name := "three", id := 3 }] "six" rfl rfl rfl rfl
    (by decide)

/-- C17 (toggle view): the `s` key in `normalMode` sets `completedMode`, in
`completedMode` it sets `normalMode`, and changes nothing else: lists, cursors, id
counter, text input and the other fields are as before; pressed on the state it
returned, it returns the first state. -/
theorem toggle_view (w : Widgets) (m : model w) :
    (m.currentMode = mode.normalMode →
      ∃ m1, Update w m (Msg.key "s") = some (m1, Cmd.nil) ∧
        m1.currentMode = mode.completedMode ∧
        m1.normalList = m.normalList ∧ m1.completedList = m.completedList ∧
        m1.taskID = m.taskID ∧ m1.additionTextInput = m.additionTextInput ∧
        m1.quitting = m.quitting ∧ m1.err = m.err ∧ m1.spinner = m.spinner ∧
        Update w m1 (Msg.key "s") = some (m, Cmd.nil)) ∧
    (m.currentMode = mode.completedMode →
      ∃ m1, Update w m (Msg.key "s") = some (m1, Cmd.nil) ∧
        m1.currentMode = mode.normalMode ∧
        m1.normalList = m.normalList ∧ m1.completedList = m.completedList ∧
        m1.taskID = m.taskID ∧ m1.additionTextInput = m.additionTextInput ∧
        m1.quitting = m.quitting ∧ m1.err = m.err ∧ m1.spinner = m.spinner ∧
        Update w m1 (Msg.key "s") = some (m, Cmd.nil)) := by
  constructor
  · intro hm
    refine ⟨_, Update_toggle_normal m hm, rfl, rfl, rfl, rfl, rfl, rfl, rfl, rfl, ?_⟩
    rw [Update_toggle_completed _ rfl]
    cases m
    simp only at hm
    subst hm
    rfl
  · intro hm
    refine ⟨_, Update_toggle_completed m hm, rfl, rfl, rfl, rfl, rfl, rfl, rfl, rfl, ?_⟩
    rw [Update_toggle_normal _ rfl]
    cases m
    simp only at hm
    subst hm
    rfl

/-- C17 on `initialModel()`: `s` leads to `completedMode`, `s` again leads back to
`initialModel()`. -/
theorem toggle_view_witness :
    ∃ m1, Update plainWidgets (initialModel plainWidgets) (Msg.key "s") =
        some (m1, Cmd.nil) ∧
      m1.currentMode = mode.completedMode ∧
      m1.normalList = (initialModel plainWidgets).normalList ∧
      m1.completedList = (initialModel plainWidgets).completedList ∧
      m1.taskID = (initialModel plainWidgets).taskID ∧
      m1.additionTextInput = (initialModel plainWidgets).additionTextInput ∧
      m1.quitting = (initialModel plainWidgets).quitting ∧
      m1.err = (initialModel plainWidgets).err ∧
      m1.spinner = (initialModel plainWidgets).spinner ∧
      Update plainWidgets m1 (Msg.key "s") = some (initialModel plainWidgets, Cmd.nil) :=
  (toggle_view plainWidgets (initialModel plainWidgets)).1 rfl

/-- C18 (edit loads the title; edit then confirm changes nothing): in a reachable
`normalMode` state with a non-empty pending list there is a task at the pending
cursor; the `e` key sets `editingMode`, loads the name of that task into the text
input and leaves lists, cursors and id counter alone; the enter key pressed next
leads back to `normalMode` with both lists, both cursors and the id counter exactly
as before the `e` key.  Assumed of the text input: `SetValue` of the task name makes
that name its text, and it keeps that text on the enter key. -/
theorem edit_then_confirm_identity (w : Widgets) (m : model w)
    (hr : Reachable w m) (hm : m.currentMode = mode.normalMode)
    (hne : m.normalList.list ≠ [])
    (hs : ∀ t, index m.normalList.list m.normalList.cursor = some t →
      w.value (w.setValue m.additionTextInput t.name) = t.name)
    (hk : ∀ t, index m.normalList.list m.normalList.cursor = some t →
      EnterKeepsText w (w.setValue m.additionTextInput t.name)) :
    ∃ t m1 m2, index m.normalList.list m.normalList.cursor = some t ∧
      Update w m (Msg.key "e") = some (m1, Cmd.blink) ∧
      m1.currentMode = mode.editingMode ∧
      w.value m1.additionTextInput = t.name ∧
      m1.normalList = m.normalList ∧ m1.completedList = m.completedList ∧
      m1.taskID = m.taskID ∧
      Update w m1 (Msg.key keyEnter) = some (m2, Cmd.nil) ∧
      m2.currentMode = mode.normalMode ∧
      m2.normalList = m.normalList ∧ m2.completedList = m.completedList ∧
      m2.taskID = m.taskID := by
  obtain ⟨hN, _, _⟩ := inv_of_reachable m hr
  obtain ⟨h0, h1⟩ := cursorOK_nonempty _ hN hne
  obtain ⟨t, ht, hg⟩ := index_of_inRange _ _ h0 h1
  have hname : t.name ≠ "" :=
    names_of_reachable m hr t (List.mem_append.2 (Or.inl (index_mem _ _ t ht)))
  have hlen : ¬ m.normalList.list.length = 0 := by
    intro h
    exact hne (List.eq_nil_of_length_eq_zero h)
  have hu1 : Update w m (Msg.key "e") =
      some ({ m with
        additionTextInput := w.setValue m.additionTextInput t.name
        currentMode := mode.editingMode }, Cmd.blink) := by
    rw [Update_e_normal m hm, if_neg hlen, ht]
  have hv : w.value (w.inputUpdate (w.setValue m.additionTextInput t.name)
      (Msg.key keyEnter)) = t.name := (hk t ht).trans (hs t ht)
  have hb : w.value (w.inputUpdate
      ({ m with
        additionTextInput := w.setValue m.additionTextInput t.name
        currentMode := mode.editingMode } : model w).additionTextInput
      (Msg.key keyEnter)) ≠ "" := by
    show w.value (w.inputUpdate (w.setValue m.additionTextInput t.name)
      (Msg.key keyEnter)) ≠ ""
    rw [hv]
    exact hname
  have hu2 := Update_editing_rename
    ({ m with
      additionTextInput := w.setValue m.additionTextInput t.name
      currentMode := mode.editingMode } : model w) rfl hb
  have hset : setName m.normalList.list m.normalList.cursor t.name =
      some m.normalList.list := by
    simp only [setName, ht]
    rw [set_same _ _ t hg]
  simp only [hv, hset] at hu2
  exact ⟨t, _, _, ht, hu1, rfl, hs t ht, rfl, rfl, rfl, hu2, rfl, rfl, rfl, rfl⟩

/-- C18 on `initialModel()`: the `e` key loads `three`, the name at cursor `1`; the
enter key gives back the seed lists, cursors and counter. -/
theorem edit_then_confirm_identity_witness :
    ∃ t m1 m2, index (initialModel plainWidgets).normalList.list
        (initialModel plainWidgets).normalList.cursor = some t ∧
      Update plainWidgets (initialModel plainWidgets) (Msg.key "e") =
        some (m1, Cmd.blink) ∧
      m1.currentMode = mode.editingMode ∧
      plainWidgets.value m1.additionTextInput = t.name ∧
      m1.normalList = (initialModel plainWidgets).normalList ∧
      m1.completedList = (initialModel plainWidgets).completedList ∧
      m1.taskID = (initialModel plainWidgets).taskID ∧
      Update plainWidgets m1 (Msg.key keyEnter) = some (m2, Cmd.nil) ∧
      m2.currentMode = mode.normalMode ∧
      m2.normalList = (initialModel plainWidgets).normalList ∧
      m2.completedList = (initialModel plainWidgets).completedList ∧
      m2.taskID = (initialModel plainWidgets).taskID :=
  edit_then_confirm_identity plainWidgets (initialModel plainWidgets) Reachable.init rfl
    (by simp [initialModel]) (fun _ _ => rfl)
    (fun t ht => by
      have h2 : index (initialModel plainWidgets).normalList.list
          (initialModel plainWidgets).normalList.cursor =
          some { name := "three", id := 3 } := rfl
      rw [h2] at ht
      rw [← Option.some.inj ht]
      rfl)

/-- C19 (no task is lost): in every reachable state every task of the two lists has
a non-empty name; so the enter key in `normalMode` on a non-empty pending list passes
the guard `curTask.name != ""` and appends the removed task to the completed list,
keeping the multiset of tasks; and for every message `Update` returns a state whose
multiset of tasks is the one before, or the one before with the one new task added
(enter in `additionMode` with a text that is not blank), or the one before with one
task removed (the `d` key while browsing, or enter in `editingMode` with the empty
text), or the one before with the name of one task replaced by the text, its id
kept (enter in `editingMode` with a non-empty text).  The text is the one `Update`
reads from the text input for that message. -/
theorem no_task_lost (w : Widgets) (m : model w) (hr : Reachable w m) :
    (∀ t ∈ m.normalList.list ++ m.completedList.list, t.name ≠ "") ∧
    (m.currentMode = mode.normalMode → m.normalList.list ≠ [] →
      ∃ t m1, index m.normalList.list m.normalList.cursor = some t ∧ t.name ≠ "" ∧
        Update w m (Msg.key keyEnter) = some (m1, Cmd.nil) ∧
        m1.completedList.list = m.completedList.list ++ [t] ∧
        tasks m1 = tasks m) ∧
    ∀ msg : Msg, ∃ m1 c, Update w m msg = some (m1, c) ∧
      (tasks m1 = tasks m ∨
      (m.currentMode = mode.additionMode ∧ msg = Msg.key keyEnter ∧
        trimSpace (readText w m msg) ≠ "" ∧
        tasks m1 = { name := readText w m msg, id := m.taskID } ::ₘ tasks m) ∨
      (∃ t, ((msg = Msg.key "d" ∧
            (m.currentMode = mode.normalMode ∨ m.currentMode = mode.completedMode)) ∨
          (m.currentMode = mode.editingMode ∧ msg = Msg.key keyEnter ∧
            readText w m msg = "")) ∧
        tasks m = t ::ₘ tasks m1) ∨
      (∃ t rest, m.currentMode = mode.editingMode ∧ msg = Msg.key keyEnter ∧
        readText w m msg ≠ "" ∧ tasks m = t ::ₘ rest ∧
        tasks m1 = { name := readText w m msg, id := t.id } ::ₘ rest)) := by
  have hI := inv_of_reachable m hr
  have hNm := names_of_reachable m hr
  refine ⟨hNm, ?_, ?_⟩
  · intro hm hne
    obtain ⟨h0, h1⟩ := cursorOK_nonempty _ hI.1 hne
    obtain ⟨t, ht, hrem⟩ := remove_of_inRange m mode.normalMode m.normalList rfl h0 h1
    have hname : t.name ≠ "" := hNm t (List.mem_append.2 (Or.inl (index_mem _ _ t ht)))
    rw [Update_enter_normal m hm, hrem]
    dsimp only
    rw [if_pos hname]
    exact ⟨t, _, ht, hname, rfl, rfl, coe_moved _ _ _ t (index_get _ _ t ht)⟩
  · intro msg
    obtain ⟨m1, c, hu, hcause⟩ := Update_cause m msg hI hNm
    exact ⟨m1, c, hu, cause_tasks m m1 msg hcause⟩

/-- C19 on the reachable state with task 3 deleted and a task `x` added: all names are
non-empty, the enter key moves the pending task at the cursor to the completed list,
and every message changes the multiset of tasks in one of the four ways. -/
theorem no_task_lost_witness :
    Reachable plainWidgets readdedModel ∧
    (∀ t ∈ readdedModel.normalList.list ++ readdedModel.completedList.list, t.name ≠ "") ∧
    (∃ t m1, index readdedModel.normalList.list readdedModel.normalList.cursor = some t ∧
        t.name ≠ "" ∧
        Update plainWidgets readdedModel (Msg.key keyEnter) = some (m1, Cmd.nil) ∧
        m1.completedList.list = readdedModel.completedList.list ++ [t] ∧
        tasks m1 = tasks readdedModel) ∧
    ∀ msg : Msg, ∃ m1 c, Update plainWidgets readdedModel msg = some (m1, c) ∧
      (tasks m1 = tasks readdedModel ∨
      (readdedModel.currentMode = mode.additionMode ∧ msg = Msg.key keyEnter ∧
        trimSpace (readText plainWidgets readdedModel msg) ≠ "" ∧
        tasks m1 = { name := readText plainWidgets readdedModel msg,
                     id := readdedModel.taskID } ::ₘ tasks readdedModel) ∨
      (∃ t, ((msg = Msg.key "d" ∧
            (readdedModel.currentMode = mode.normalMode ∨
              readdedModel.currentMode = mode.completedMode)) ∨
          (readdedModel.currentMode = mode.editingMode ∧ msg = Msg.key keyEnter ∧
            readText plainWidgets readdedModel msg = "")) ∧
        tasks readdedModel = t ::ₘ tasks m1) ∨
      (∃ t rest, readdedModel.currentMode = mode.editingMode ∧ msg = Msg.key keyEnter ∧
        readText plainWidgets readdedModel msg ≠ "" ∧ tasks readdedModel = t ::ₘ rest ∧
        tasks m1 = { name := readText plainWidgets readdedModel msg, id := t.id } ::ₘ rest)) :=
  ⟨reachable_of_issued _ _ readdedModel_issued,
    (no_task_lost plainWidgets readdedModel (reachable_of_issued _ _ readdedModel_issued)).1,
    (no_task_lost plainWidgets readdedModel
      (reachable_of_issued _ _ readdedModel_issued)).2.1 rfl (by simp [readdedModel]),
    (no_task_lost plainWidgets readdedModel
      (reachable_of_issued _ _ readdedModel_issued)).2.2⟩

/-- C20 (no access out of range): in every reachable state `Update` returns a state
for every message, that is, none of its slice accesses and map lookups panics; the
lookup of the current mode hits a list while browsing;
`removeTaskFromCurrentList` returns for both list kinds; the access `list[cursor]` is
within bounds for every list of the map that is not empty; and a reachable
`editingMode` state has a non-empty pending list with its cursor in range. -/
theorem update_never_panics (w : Widgets) (m : model w) (hr : Reachable w m) :
    (∀ msg : Msg, ∃ m1 c, Update w m msg = some (m1, c)) ∧
    (m.currentMode ≠ mode.additionMode → m.currentMode ≠ mode.editingMode →
      ∃ tl, taskListPerMode m m.currentMode = some tl) ∧
    (∀ md, md = mode.normalMode ∨ md = mode.completedMode →
      ∃ m1 t, removeTaskFromCurrentList m md = some (m1, t)) ∧
    (∀ md tl, taskListPerMode m md = some tl → tl.list ≠ [] →
      (0 ≤ tl.cursor ∧ tl.cursor < (tl.list.length : Int)) ∧
      ∃ t, index tl.list tl.cursor = some t) ∧
    (m.currentMode = mode.editingMode →
      m.normalList.list ≠ [] ∧ 0 ≤ m.normalList.cursor ∧
      m.normalList.cursor < (m.normalList.list.length : Int) ∧
      ∃ t, index m.normalList.list m.normalList.cursor = some t) := by
  have hI := inv_of_reachable m hr
  obtain ⟨hN, hC, hE⟩ := hI
  have hlist : ∀ md tl, taskListPerMode m md = some tl → CursorOK tl := by
    intro md tl h
    cases md <;> simp only [taskListPerMode, Option.some.injEq] at h
    · exact h ▸ hN
    · exact h ▸ hC
    · simp at h
    · simp at h
  refine ⟨?_, ?_, ?_, ?_, ?_⟩
  · intro msg
    obtain ⟨m1, c, hu, _⟩ := Update_inv m msg ⟨hN, hC, hE⟩
    exact ⟨m1, c, hu⟩
  · intro ha he
    rcases lookup_browsing m ha he with ⟨_, hl⟩ | ⟨_, hl⟩ <;> exact ⟨_, hl⟩
  · intro md hmd
    have hl : ∃ tl, taskListPerMode m md = some tl := by
      rcases hmd with rfl | rfl <;> exact ⟨_, rfl⟩
    obtain ⟨tl, hl⟩ := hl
    rcases remove_cases m md tl hl (hlist md tl hl) with ⟨_, h⟩ | ⟨_, _, _, t, _, h⟩
    · exact ⟨_, _, h⟩
    · exact ⟨_, _, h⟩
  · intro md tl hl hne
    obtain ⟨h0, h1⟩ := cursorOK_nonempty tl (hlist md tl hl) hne
    obtain ⟨t, ht, _⟩ := index_of_inRange _ _ h0 h1
    exact ⟨⟨h0, h1⟩, t, ht⟩
  · intro he
    obtain ⟨h0, h1⟩ := cursorOK_nonempty _ hN (hE he)
    obtain ⟨t, ht, _⟩ := index_of_inRange _ _ h0 h1
    exact ⟨hE he, h0, h1, t, ht⟩

/-- C20 on the reachable `editingMode` state with the text cleared: `Update` returns
for every message, and the pending list is non-empty with the cursor `1` in range
of its two tasks. -/
theorem update_never_panics_witness :
    Reachable plainWidgets clearedEditModel ∧
    (∀ msg : Msg, ∃ m1 c, Update plainWidgets clearedEditModel msg = some (m1, c)) ∧
    (∀ md, md = mode.normalMode ∨ md = mode.completedMode →
      ∃ m1 t, removeTaskFromCurrentList clearedEditModel md = some (m1, t)) ∧
    (clearedEditModel.normalList.list ≠ [] ∧ 0 ≤ clearedEditModel.normalList.cursor ∧
      clearedEditModel.normalList.cursor <
        (clearedEditModel.normalList.list.length : Int) ∧
      ∃ t, index clearedEditModel.normalList.list clearedEditModel.normalList.cursor =
        some t) :=
  ⟨clearedEditModel_reachable,
    (update_never_panics plainWidgets clearedEditModel clearedEditModel_reachable).1,
    (update_never_panics plainWidgets clearedEditModel clearedEditModel_reachable).2.2.1,
    (update_never_panics plainWidgets clearedEditModel
      clearedEditModel_reachable).2.2.2.2 rfl⟩

end TodoTui
